import Mathlib

/-!
Shallow embedding of the packt rectangle-packing harness
(src/packt-core/src: geometry.rs, problem.rs, solution.rs, runner.rs).

Modelling conventions:
* Rust `u32` values are Lean `Nat`s; arithmetic that Rust performs on `u32`
  is modelled with its overflow checks explicit (`u32size = 2^32`): an
  addition/subtraction that would overflow or underflow a `u32` is a Rust
  panic (debug / test profile semantics) and is modelled as `none` / a
  `panic` outcome.  `u64` aggregates (memoized areas, area sums) are
  modelled as unbounded `Nat`.
* Rust strings are `List Char`; `str::lines`, `str::split_whitespace`,
  `str::trim`, `str::split` (on a substring pattern) and `u32::from_str`
  are re-implemented structurally below, following the Rust semantics.
* The `f64`/`f32` filling-rate computation of `Solution::evaluate` is
  modelled exactly over `ℚ` (the quantity `min_area / container.area`);
  the comparison against `1.0` is the comparison against `(1 : ℚ)`.
* Randomness (`rand::thread_rng`) is modelled by an explicit oracle: a
  stream of arbitrary natural numbers; `Rng::gen_range(lo, hi)` applied
  to an oracle value `s` is `lo + s % (hi - lo)`, which ranges exactly
  over `[lo, hi)` whenever `lo < hi`, as the real generator does.  The
  generator's unbounded `while` loop is run on explicit fuel; running out
  of fuel is a distinct outcome (`fuelOut`), not a panic and not a result.
-/

namespace Packt

/-- The number of `u32` values: `2^32`. -/
def u32size : Nat := 4294967296

/-! ## Geometry (src/packt-core/src/geometry.rs) -/

/-- `Point { x: u32, y: u32 }`. -/
structure Point where
  x : Nat
  y : Nat
deriving DecidableEq, Repr

/-- `Point::new`. -/
def Point.new (x y : Nat) : Point := ⟨x, y⟩

/-- `Rectangle { width: u32, height: u32, area: u64 }`.  The memoized
`area` field always equals `height * width` (every construction site
computes it that way), so it is modelled as the function
`Rectangle.area` rather than a stored field. -/
structure Rectangle where
  width : Nat
  height : Nat
deriving DecidableEq, Repr

/-- `Rectangle::new`. -/
def Rectangle.new (width height : Nat) : Rectangle := ⟨width, height⟩

/-- `Rectangle::area`: the memoized `height as u64 * width as u64`. -/
def Rectangle.area (r : Rectangle) : Nat := r.height * r.width

/-- `enum Rotation { Normal, Rotated }`. -/
inductive Rotation where
  | Normal
  | Rotated
deriving DecidableEq, Repr

/-- `Placement { rectangle, rotation, bottom_left, top_right }`. -/
structure Placement where
  rectangle : Rectangle
  rotation : Rotation
  bottom_left : Point
  top_right : Point
deriving DecidableEq, Repr

/-- The extent of a rectangle along the x axis after applying a rotation:
the `(width, height)` match at the top of `Placement::new`. -/
def rotatedWidth (r : Rectangle) : Rotation → Nat
  | .Normal => r.width
  | .Rotated => r.height

/-- The extent of a rectangle along the y axis after applying a rotation. -/
def rotatedHeight (r : Rectangle) : Rotation → Nat
  | .Normal => r.height
  | .Rotated => r.width

/-- Rust `a + b - 1` on `u32`, with its overflow checks: the addition
panics when the sum does not fit in a `u32`, and the subtraction panics
when the sum is `0` (both operands zero).  `none` models the panic. -/
def u32AddSub1 (a b : Nat) : Option Nat :=
  if u32size ≤ a + b then none
  else if a + b = 0 then none
  else some (a + b - 1)

/-- `Placement::new`: computes the inclusive top-right corner
`bottom_left + rotated extent - 1` on `u32`s.  `none` is the arithmetic
panic (zero extent underflows, huge coordinates overflow). -/
def Placement.new (r : Rectangle) (rotation : Rotation) (bottom_left : Point) :
    Option Placement :=
  match u32AddSub1 bottom_left.x (rotatedWidth r rotation),
        u32AddSub1 bottom_left.y (rotatedHeight r rotation) with
  | some xMax, some yMax =>
      some ⟨r, rotation, bottom_left, Point.new xMax yMax⟩
  | _, _ => none

/-- `Placement::overlaps`: the closed-interval intersection test of the
source, literally
`rhs.bl.y <= self.tr.y && rhs.bl.x <= self.tr.x && self.bl.y <= rhs.tr.y && self.bl.x <= rhs.tr.x`. -/
def Placement.overlaps (self rhs : Placement) : Bool :=
  decide (rhs.bottom_left.y ≤ self.top_right.y) &&
  decide (rhs.bottom_left.x ≤ self.top_right.x) &&
  decide (self.bottom_left.y ≤ rhs.top_right.y) &&
  decide (self.bottom_left.x ≤ rhs.top_right.x)

/-! ## C1: overlap test on placements built by `Placement::new` -/

theorem u32AddSub1_eq {a b v : Nat} (h : u32AddSub1 a b = some v) :
    v = a + b - 1 ∧ a + b ≠ 0 ∧ a + b < u32size := by
  unfold u32AddSub1 at h
  split at h
  · exact absurd h (by simp)
  · split at h
    · exact absurd h (by simp)
    · refine ⟨by injection h with h; omega, by omega, by omega⟩

theorem interval_intersect {a b c d : Nat} (hab : a ≤ b) (hcd : c ≤ d) :
    (∃ z, a ≤ z ∧ z ≤ b ∧ c ≤ z ∧ z ≤ d) ↔ (c ≤ b ∧ a ≤ d) := by
  constructor
  · rintro ⟨z, h1, h2, h3, h4⟩
    omega
  · rintro ⟨h1, h2⟩
    exact ⟨max a c, by omega⟩

/-- C1: for placements built by `Placement::new` from rectangles of
positive width and height, `overlaps` is true exactly when the closed
intervals `[bottom_left.x, bottom_left.x + rotated width - 1]` of the two
placements intersect and the closed intervals
`[bottom_left.y, bottom_left.y + rotated height - 1]` intersect; touching
edges (a shared coordinate) therefore count as overlap. -/
theorem overlaps_iff_closed_intervals_intersect
    (r1 r2 : Rectangle) (rot1 rot2 : Rotation) (bl1 bl2 : Point)
    (p1 p2 : Placement)
    (hw1 : 0 < r1.width) (hh1 : 0 < r1.height)
    (hw2 : 0 < r2.width) (hh2 : 0 < r2.height)
    (hp1 : Placement.new r1 rot1 bl1 = some p1)
    (hp2 : Placement.new r2 rot2 bl2 = some p2) :
    p1.overlaps p2 = true ↔
      ((∃ z, bl1.x ≤ z ∧ z ≤ bl1.x + rotatedWidth r1 rot1 - 1 ∧
             bl2.x ≤ z ∧ z ≤ bl2.x + rotatedWidth r2 rot2 - 1) ∧
       (∃ z, bl1.y ≤ z ∧ z ≤ bl1.y + rotatedHeight r1 rot1 - 1 ∧
             bl2.y ≤ z ∧ z ≤ bl2.y + rotatedHeight r2 rot2 - 1)) := by
  have hw1' : 0 < rotatedWidth r1 rot1 := by cases rot1 <;> simpa [rotatedWidth]
  have hh1' : 0 < rotatedHeight r1 rot1 := by cases rot1 <;> simpa [rotatedHeight]
  have hw2' : 0 < rotatedWidth r2 rot2 := by cases rot2 <;> simpa [rotatedWidth]
  have hh2' : 0 < rotatedHeight r2 rot2 := by cases rot2 <;> simpa [rotatedHeight]
  unfold Placement.new at hp1 hp2
  rcases hx1 : u32AddSub1 bl1.x (rotatedWidth r1 rot1) with _ | xm1 <;> rw [hx1] at hp1
  · simp at hp1
  rcases hy1 : u32AddSub1 bl1.y (rotatedHeight r1 rot1) with _ | ym1 <;> rw [hy1] at hp1
  · simp at hp1
  rcases hx2 : u32AddSub1 bl2.x (rotatedWidth r2 rot2) with _ | xm2 <;> rw [hx2] at hp2
  · simp at hp2
  rcases hy2 : u32AddSub1 bl2.y (rotatedHeight r2 rot2) with _ | ym2 <;> rw [hy2] at hp2
  · simp at hp2
  injection hp1 with hp1
  injection hp2 with hp2
  obtain ⟨hx1v, -, -⟩ := u32AddSub1_eq hx1
  obtain ⟨hy1v, -, -⟩ := u32AddSub1_eq hy1
  obtain ⟨hx2v, -, -⟩ := u32AddSub1_eq hx2
  obtain ⟨hy2v, -, -⟩ := u32AddSub1_eq hy2
  subst hp1 hp2
  simp only [Placement.overlaps, Point.new, Bool.and_eq_true, decide_eq_true_eq]
  rw [interval_intersect (by omega) (by omega), interval_intersect (by omega) (by omega)]
  constructor
  · rintro ⟨⟨h1, h2⟩, h3⟩
    exact ⟨⟨by omega, by omega⟩, by omega⟩
  · rintro ⟨⟨h1, h2⟩, ⟨h3, h4⟩⟩
    refine ⟨⟨by omega, by omega⟩, by omega⟩

/-- A concrete placement used to instantiate C1: a 2x1 rectangle at the
origin, whose inclusive top-right corner is (1, 0). -/
def pC1a : Placement := ⟨Rectangle.new 2 1, Rotation.Normal, Point.new 0 0, Point.new 1 0⟩

/-- A concrete placement used to instantiate C1: a 2x1 rectangle at
(1, 0), touching `pC1a` at the shared x coordinate 1. -/
def pC1b : Placement := ⟨Rectangle.new 2 1, Rotation.Normal, Point.new 1 0, Point.new 2 0⟩

theorem overlaps_iff_closed_intervals_intersect_witness :
    pC1a.overlaps pC1b = true :=
  (overlaps_iff_closed_intervals_intersect (Rectangle.new 2 1) (Rectangle.new 2 1)
    Rotation.Normal Rotation.Normal (Point.new 0 0) (Point.new 1 0) pC1a pC1b
    (by decide) (by decide) (by decide) (by decide) (by decide) (by decide)).mpr
    ⟨⟨1, by decide, by decide, by decide, by decide⟩,
     ⟨0, by decide, by decide, by decide, by decide⟩⟩

/-! ## Strings: Rust `str` operations over `List Char` -/

/-- Rust `char::is_whitespace`: the Unicode White_Space property. -/
def isWhite (c : Char) : Bool :=
  ([9, 10, 11, 12, 13, 32, 133, 160, 5760, 8192, 8193, 8194, 8195, 8196,
    8197, 8198, 8199, 8200, 8201, 8202, 8232, 8233, 8239, 8287, 12288] :
    List Nat).contains c.toNat

/-- Split a character list at every character satisfying `p`, keeping
empty segments (the underlying splitter of `str::lines` and
`str::split_whitespace`). -/
def splitPred (p : Char → Bool) : List Char → List (List Char)
  | [] => [[]]
  | c :: cs =>
    if p c then [] :: splitPred p cs
    else
      match splitPred p cs with
      | [] => [[c]]
      | g :: gs => (c :: g) :: gs

/-- Rust `str::split_whitespace`: whitespace-separated tokens, empties
dropped. -/
def splitWhitespace (s : List Char) : List (List Char) :=
  (splitPred isWhite s).filter (fun g => !g.isEmpty)

/-- Strip one trailing carriage return (part of `str::lines`). -/
def stripCR (l : List Char) : List Char :=
  if l.getLast? = some '\r' then l.dropLast else l

/-- Rust `str::lines`: split at `\n`, treating `\n` as a terminator (no
empty final line) and removing a `\r` before each line feed. -/
def rustLines (s : List Char) : List (List Char) :=
  match s with
  | [] => []
  | _ =>
    if s.getLast? = some '\n' then
      (splitPred (fun c => c = '\n') s.dropLast).map stripCR
    else
      match (splitPred (fun c => c = '\n') s).reverse with
      | [] => []
      | lastSeg :: revInit => (revInit.reverse.map stripCR) ++ [lastSeg]

/-- Drop leading whitespace. -/
def trimLeft : List Char → List Char
  | [] => []
  | c :: cs => if isWhite c then trimLeft cs else c :: cs

/-- Rust `str::trim`. -/
def rustTrim (s : List Char) : List Char :=
  (trimLeft (trimLeft s.reverse).reverse)

/-- First occurrence split: `some (before, after)` when the separator
occurs as a sublist, `none` otherwise (drives Rust `str::split` on a
substring pattern). -/
def splitFirst (sep : List Char) : List Char → Option (List Char × List Char)
  | [] => if sep.isEmpty then some ([], []) else none
  | c :: cs =>
    if sep.isPrefixOf (c :: cs) then some ([], (c :: cs).drop sep.length)
    else
      match splitFirst sep cs with
      | none => none
      | some (pre, post) => some (c :: pre, post)

/-- Accumulating decimal parser with the `u32` overflow check of Rust's
checked accumulation (`acc * 10 + digit` must stay below `2^32`). -/
def digitsVal (acc : Nat) : List Char → Option Nat
  | [] => some acc
  | c :: cs =>
    if c.isDigit then
      if acc * 10 + (c.toNat - 48) < u32size then
        digitsVal (acc * 10 + (c.toNat - 48)) cs
      else none
    else none

/-- Rust `u32::from_str`: an optional leading plus sign, then one or more
ASCII digits, with overflow reported as an error. -/
def parseU32 (s : List Char) : Option Nat :=
  if s.head? = some '+' then
    if s.tail.isEmpty then none else digitsVal 0 s.tail
  else
    if s.isEmpty then none else digitsVal 0 s

/-- The ASCII digit character for a value below ten. -/
def digitChar : Nat → Char
  | 0 => '0'
  | 1 => '1'
  | 2 => '2'
  | 3 => '3'
  | 4 => '4'
  | 5 => '5'
  | 6 => '6'
  | 7 => '7'
  | 8 => '8'
  | _ => '9'

/-- Little-endian decimal digits of `n`, on fuel (the fuel `n` itself is
always sufficient). -/
def natDigitsAux : Nat → Nat → List Nat
  | 0, _ => []
  | _ + 1, 0 => []
  | fuel + 1, n + 1 => ((n + 1) % 10) :: natDigitsAux fuel ((n + 1) / 10)

/-- Little-endian decimal digits of `n` (empty for `0`). -/
def natDigits (n : Nat) : List Nat := natDigitsAux n n

/-- Decimal rendering of a natural number, as Rust's `Display` for
integers produces it. -/
def natToStr (n : Nat) : List Char :=
  if n = 0 then ['0'] else ((natDigits n).map digitChar).reverse

/-! ## Problem (src/packt-core/src/problem.rs) -/

/-- `enum Variant { Free, Fixed(u32) }`. -/
inductive Variant where
  | Free
  | Fixed (h : Nat)
deriving DecidableEq, Repr

/-- `Problem { variant, allow_rotation, rectangles, source }`. -/
structure Problem where
  variant : Variant
  allow_rotation : Bool
  rectangles : List Rectangle
  source : Option Rectangle
deriving DecidableEq, Repr

/-- `Display` for `Rectangle`: the line `"{w} {h}"`. -/
def Rectangle.format (r : Rectangle) : List Char :=
  natToStr r.width ++ ' ' :: natToStr r.height

/-- `Display` for `Variant`: `"free"` or `"fixed {h}"`. -/
def Variant.format : Variant → List Char
  | .Free => "free".data
  | .Fixed h => "fixed ".data ++ natToStr h

/-- `Problem::config_str`: the three header lines. -/
def Problem.configStr (p : Problem) : List Char :=
  "container height: ".data ++ p.variant.format ++
  '\n' :: "rotations allowed: ".data ++
    (if p.allow_rotation then "yes".data else "no".data) ++
  '\n' :: "number of rectangles: ".data ++ natToStr p.rectangles.length

/-- `Display` for `Problem`: the header lines followed by one rectangle
line per rectangle. -/
def Problem.format (p : Problem) : List Char :=
  p.configStr ++ (p.rectangles.map (fun r => '\n' :: r.format)).flatten

/-- `FromStr` for `Rectangle`: two whitespace-separated `u32`s. -/
def Rectangle.fromStr (s : List Char) : Option Rectangle :=
  match splitWhitespace s with
  | [w, h] =>
    match parseU32 w, parseU32 h with
    | some wv, some hv => some (Rectangle.new wv hv)
    | _, _ => none
  | _ => none

/-- The first-line match of `Problem::from_str`. -/
def parseVariantLine (l : List Char) : Option Variant :=
  match splitWhitespace l with
  | [w1, w2, w3] =>
    if w1 = "container".data ∧ w2 = "height:".data ∧ w3 = "free".data then
      some Variant.Free
    else none
  | [w1, w2, w3, h] =>
    if w1 = "container".data ∧ w2 = "height:".data ∧ w3 = "fixed".data then
      (parseU32 h).map Variant.Fixed
    else none
  | _ => none

/-- The second-line match of `Problem::from_str` (an exact string
comparison in the source). -/
def parseRotationLine (l : List Char) : Option Bool :=
  if l = "rotations allowed: yes".data then some true
  else if l = "rotations allowed: no".data then some false
  else none

/-- `FromStr` for `Problem`: variant line, rotation line, one discarded
line, then every remaining line parsed as a rectangle; the parsed
problem's `source` is `None`. -/
def Problem.fromStr (s : List Char) : Option Problem :=
  match rustLines s with
  | [] => none
  | l1 :: rest =>
    match parseVariantLine l1 with
    | none => none
    | some v =>
      match rest with
      | [] => none
      | l2 :: rest2 =>
        match parseRotationLine l2 with
        | none => none
        | some ar =>
          match (rest2.drop 1).mapM Rectangle.fromStr with
          | none => none
          | some rs => some ⟨v, ar, rs, none⟩

/-! ## Solution (src/packt-core/src/solution.rs) -/

/-- `Solution { variant, allow_rotation, source, placements }`. -/
structure Solution where
  variant : Variant
  allow_rotation : Bool
  source : Option Problem
  placements : List Placement
deriving DecidableEq, Repr

/-- The pairwise scan of `Solution::is_valid`: true when some placement
overlaps a later one. -/
def anyOverlap : List Placement → Bool
  | [] => false
  | p :: ps => ps.any (fun q => p.overlaps q) || anyOverlap ps

/-- `Solution::is_valid`: no pair of placements overlaps. -/
def Solution.is_valid (s : Solution) : Bool := !anyOverlap s.placements

/-- Outcome of `Solution::container`: `panic` is reached when the `u32`
increment of a coordinate overflows or when the `source` field is `None`
(the `unwrap`); `err` is the `BoundsExceededError` bail. -/
inductive CRes where
  | panic
  | err
  | ok (r : Rectangle)
deriving DecidableEq, Repr

/-- `Solution::container`: folds the component-wise maximum of the
placements' inclusive top-right corners starting from `(0, 0)`, adds one
to each component (a `u32` increment), unwraps `source`, and checks the
`Fixed` height bound. -/
def Solution.container (s : Solution) : CRes :=
  let m := s.placements.foldl
    (fun (a : Nat × Nat) p => (max a.1 p.top_right.x, max a.2 p.top_right.y))
    (0, 0)
  if u32size ≤ m.1 + 1 ∨ u32size ≤ m.2 + 1 then .panic
  else
    let x := m.1 + 1
    let y := m.2 + 1
    match s.source with
    | none => .panic
    | some p =>
      match p.variant with
      | .Fixed k => if y > k then .err else .ok (Rectangle.new x k)
      | .Free => .ok (Rectangle.new x y)

/-- `Evaluation { container, min_area, empty_area, filling_rate, duration }`;
the filling rate is modelled exactly over `ℚ` and the duration as a bare
number. -/
structure Evaluation where
  container : Rectangle
  min_area : Nat
  empty_area : Int
  filling_rate : ℚ
  duration : Nat
deriving DecidableEq, Repr

/-- The error kinds `Solution::evaluate` can bail with: the overlap
bail, the bounds bail inside `container`, and the
filling-rate-above-one invariant bail. -/
inductive EvalErr where
  | overlap
  | bounds
  | invariant
deriving DecidableEq, Repr

/-- Outcome of `Solution::evaluate`. -/
inductive ERes where
  | panic
  | err (e : EvalErr)
  | ok (e : Evaluation)
deriving DecidableEq, Repr

/-- `min_area`: the sum of the placements' rectangle areas. -/
def Solution.minArea (s : Solution) : Nat :=
  (s.placements.map (fun p => p.rectangle.area)).sum

/-- `Solution::evaluate`: bails with the overlap error when `is_valid`
is false, propagates `container`'s outcome, computes the metrics, and
bails with the invariant error when the filling rate exceeds one. -/
def Solution.evaluate (s : Solution) (duration : Nat) : ERes :=
  if s.is_valid = false then .err .overlap
  else
    match s.container with
    | .panic => .panic
    | .err => .err .bounds
    | .ok c =>
      let minA := s.minArea
      let emptyArea : Int := (c.area : Int) - (minA : Int)
      let fillingRate : ℚ := (minA : ℚ) / (c.area : ℚ)
      if fillingRate > 1 then .err .invariant
      else .ok ⟨c, minA, emptyArea, fillingRate, duration⟩

/-- `Solution::source`: attaches the originating problem. -/
def Solution.withSource (s : Solution) (p : Problem) : Solution :=
  { s with source := some p }

/-- Outcome of `Solution::from_str`: a parse error, a panic inside
`Placement::new` (zero-extent or overflowing placement arithmetic), or a
parsed solution. -/
inductive PRes (α : Type) where
  | panic
  | err
  | ok (a : α)
deriving DecidableEq, Repr

/-- The per-line token match inside `Solution::from_str`'s placement
loop: two numeric tokens without rotations, a rotation token and two
numeric tokens with rotations. -/
def parsePlacementLine (allow_rotation : Bool) (l : List Char) :
    Option (Rotation × Point) :=
  match allow_rotation, splitWhitespace l with
  | false, [x, y] =>
    match parseU32 x, parseU32 y with
    | some a, some b => some (Rotation.Normal, Point.new a b)
    | _, _ => none
  | true, [rot, x, y] =>
    match parseU32 x, parseU32 y with
    | some a, some b =>
      if rot = "yes".data then some (Rotation.Rotated, Point.new a b)
      else if rot = "no".data then some (Rotation.Normal, Point.new a b)
      else none
    | _, _ => none
  | _, _ => none

/-- The zipped placement construction of `Solution::from_str`: each line
is parsed and the placement built with `Placement::new`; the first parse
error (or arithmetic panic) short-circuits, as `collect::<Result<_, _>>`
does. -/
def buildPlacements (allow_rotation : Bool) :
    List (List Char × Rectangle) → PRes (List Placement)
  | [] => .ok []
  | (l, r) :: rest =>
    match parsePlacementLine allow_rotation l with
    | none => .err
    | some (rot, pt) =>
      match Placement.new r rot pt with
      | none => .panic
      | some p =>
        match buildPlacements allow_rotation rest with
        | .ok ps => .ok (p :: ps)
        | .err => .err
        | .panic => .panic

/-- The literal separator between the problem text and the placement
lines. -/
def placementSep : List Char := "placement of rectangles".data

/-- The trimmed placement part: the text between the first separator
occurrence and the second (or the end), as the `split` iterator's second
element yields it. -/
def placementPart (rest : List Char) : List Char :=
  match splitFirst placementSep rest with
  | none => rest
  | some (mid, _) => mid

/-- `FromStr` for `Solution`: split on the separator, parse the trimmed
problem part, zip the placement lines with the problem's rectangles
(truncating at the shorter of the two), build the placements, and
require the built count to equal the rectangle count.  The parsed
solution's `source` is `None`. -/
def Solution.fromStr (s : List Char) : PRes Solution :=
  match splitFirst placementSep s with
  | none => .err
  | some (pre, rest) =>
    match Problem.fromStr (rustTrim pre) with
    | none => .err
    | some prob =>
      let placLines := rustLines (rustTrim (placementPart rest))
      match buildPlacements prob.allow_rotation (placLines.zip prob.rectangles) with
      | .panic => .panic
      | .err => .err
      | .ok ps =>
        if ps.length ≠ prob.rectangles.length then .err
        else .ok ⟨prob.variant, prob.allow_rotation, none, ps⟩

/-! ## C3: error structure of `Solution::evaluate` -/

/-- C3: `evaluate` bails with the overlap error whenever `is_valid` is
false; a normal result always carries a filling rate at most one, equal
to the computed `min_area / container.area` (never clamped); and when
the computed filling rate exceeds one (with validation passing and the
container available) the result is the invariant-violation error, never
a normal result. -/
theorem evaluate_error_structure (s : Solution) (d : Nat) :
    (s.is_valid = false → s.evaluate d = ERes.err EvalErr.overlap) ∧
    (∀ e, s.evaluate d = ERes.ok e →
        e.filling_rate ≤ 1 ∧
        ∃ c, s.container = CRes.ok c ∧
          e.filling_rate = (s.minArea : ℚ) / (c.area : ℚ)) ∧
    (∀ c, s.is_valid = true → s.container = CRes.ok c →
        (s.minArea : ℚ) / (c.area : ℚ) > 1 →
        s.evaluate d = ERes.err EvalErr.invariant) := by
  refine ⟨?_, ?_, ?_⟩
  · intro hv
    unfold Solution.evaluate
    rw [hv]
    simp
  · intro e he
    unfold Solution.evaluate at he
    split at he
    · exact absurd he (by simp)
    · rcases hc : s.container with _ | _ | c <;> rw [hc] at he
      · exact absurd he (by simp)
      · exact absurd he (by simp)
      · simp only at he
        split at he
        · exact absurd he (by simp)
        · rename_i hrate
          injection he with he
          subst he
          exact ⟨not_lt.mp hrate, c, rfl, rfl⟩
  · intro c hv hc hrate
    unfold Solution.evaluate
    rw [hv, hc]
    simp only [Bool.true_eq_false, if_false]
    rw [if_pos hrate]

/-- A concrete solution with two coincident unit placements and an
attached source, used to instantiate C3. -/
def sC3 : Solution :=
  ⟨Variant.Free, false, some ⟨Variant.Free, false, [Rectangle.new 1 1, Rectangle.new 1 1], none⟩,
   [⟨Rectangle.new 1 1, Rotation.Normal, Point.new 0 0, Point.new 0 0⟩,
    ⟨Rectangle.new 1 1, Rotation.Normal, Point.new 0 0, Point.new 0 0⟩]⟩

theorem evaluate_error_structure_witness :
    sC3.is_valid = false ∧ sC3.evaluate 0 = ERes.err EvalErr.overlap :=
  ⟨by decide, (evaluate_error_structure sC3 0).1 (by decide)⟩

/-! ## C5: `Solution::container` -/

/-- The maximum x coordinate over the placements' inclusive top-right
corners (zero when there are none). -/
def Solution.maxTRx (s : Solution) : Nat :=
  s.placements.foldl (fun m p => max m p.top_right.x) 0

/-- The maximum y coordinate over the placements' inclusive top-right
corners (zero when there are none). -/
def Solution.maxTRy (s : Solution) : Nat :=
  s.placements.foldl (fun m p => max m p.top_right.y) 0

theorem foldl_max_pair (l : List Placement) (a b : Nat) :
    l.foldl (fun (acc : Nat × Nat) p => (max acc.1 p.top_right.x, max acc.2 p.top_right.y)) (a, b)
    = (l.foldl (fun m p => max m p.top_right.x) a,
       l.foldl (fun m p => max m p.top_right.y) b) := by
  induction l generalizing a b with
  | nil => rfl
  | cons p l ih => simp only [List.foldl_cons, ih]

theorem container_unfolded (s : Solution) :
    s.container =
      if u32size ≤ s.maxTRx + 1 ∨ u32size ≤ s.maxTRy + 1 then CRes.panic
      else
        match s.source with
        | none => CRes.panic
        | some p =>
          match p.variant with
          | .Fixed k =>
            if s.maxTRy + 1 > k then CRes.err
            else CRes.ok (Rectangle.new (s.maxTRx + 1) k)
          | .Free => CRes.ok (Rectangle.new (s.maxTRx + 1) (s.maxTRy + 1)) := by
  unfold Solution.container
  rw [foldl_max_pair]
  rfl

/-- Any placement built by `Placement::new` has both inclusive top-right
coordinates at most `u32::MAX - 1`: the construction already computes
`bottom_left + extent` on `u32` before subtracting one, so a coordinate
whose increment would overflow cannot be produced. -/
theorem new_top_right_small {r : Rectangle} {rot : Rotation} {bl : Point}
    {pl : Placement} (h : Placement.new r rot bl = some pl) :
    pl.top_right.x + 1 < u32size ∧ pl.top_right.y + 1 < u32size := by
  unfold Placement.new at h
  rcases hx : u32AddSub1 bl.x (rotatedWidth r rot) with _ | xm <;> rw [hx] at h
  · exact absurd h (by simp)
  rcases hy : u32AddSub1 bl.y (rotatedHeight r rot) with _ | ym <;> rw [hy] at h
  · exact absurd h (by simp)
  injection h with h
  subst h
  obtain ⟨hv1, hn1, hb1⟩ := u32AddSub1_eq hx
  obtain ⟨hv2, hn2, hb2⟩ := u32AddSub1_eq hy
  simp only [Point.new]
  omega

theorem foldl_max_le {α : Type} (f : α → Nat) (B : Nat) :
    ∀ (l : List α) (a : Nat), a ≤ B → (∀ x ∈ l, f x ≤ B) →
      l.foldl (fun m x => max m (f x)) a ≤ B := by
  intro l
  induction l with
  | nil => intro a ha _; exact ha
  | cons x l ih =>
    intro a ha hl
    simp only [List.foldl_cons]
    exact ih (max a (f x)) (by
      have := hl x (by simp)
      omega) (fun y hy => hl y (by simp [hy]))

/-- C5: on a solution whose placements were built by `Placement::new`
and whose source problem is attached, `container` computes the bounding
box as the component-wise maximum of the placements' inclusive top-right
corners plus one in each coordinate; under `Fixed h` it fails with the
bounds error exactly when `max_y + 1` exceeds `h` and otherwise yields
width `max_x + 1` and height `h`; under `Free` it yields width
`max_x + 1` and height `max_y + 1`. -/
theorem container_spec (s : Solution) (p : Problem)
    (hsrc : s.source = some p)
    (hbuilt : ∀ pl ∈ s.placements,
        ∃ r rot bl, Placement.new r rot bl = some pl) :
    (∀ h, p.variant = Variant.Fixed h →
        (s.container = CRes.err ↔ h < s.maxTRy + 1) ∧
        (s.maxTRy + 1 ≤ h →
          s.container = CRes.ok (Rectangle.new (s.maxTRx + 1) h))) ∧
    (p.variant = Variant.Free →
        s.container = CRes.ok (Rectangle.new (s.maxTRx + 1) (s.maxTRy + 1))) := by
  obtain ⟨pv, par, prs, psrc⟩ := p
  have hu : u32size = 4294967296 := rfl
  have hx : s.maxTRx + 1 < u32size := by
    have hb : s.placements.foldl (fun m q => max m q.top_right.x) 0 ≤ u32size - 2 := by
      refine foldl_max_le (fun pl => pl.top_right.x) (u32size - 2)
        s.placements 0 (by omega) ?_
      intro pl hpl
      obtain ⟨r, rot, bl, hnew⟩ := hbuilt pl hpl
      have h1 := (new_top_right_small hnew).1
      show pl.top_right.x ≤ u32size - 2
      omega
    have hbx : s.maxTRx ≤ u32size - 2 := hb
    omega
  have hy : s.maxTRy + 1 < u32size := by
    have hb : s.placements.foldl (fun m q => max m q.top_right.y) 0 ≤ u32size - 2 := by
      refine foldl_max_le (fun pl => pl.top_right.y) (u32size - 2)
        s.placements 0 (by omega) ?_
      intro pl hpl
      obtain ⟨r, rot, bl, hnew⟩ := hbuilt pl hpl
      have h1 := (new_top_right_small hnew).2
      show pl.top_right.y ≤ u32size - 2
      omega
    have hby : s.maxTRy ≤ u32size - 2 := hb
    omega
  constructor
  · intro h hvar
    have hpv : pv = Variant.Fixed h := hvar
    subst hpv
    have hbase : s.container =
        if s.maxTRy + 1 > h then CRes.err
        else CRes.ok (Rectangle.new (s.maxTRx + 1) h) := by
      rw [container_unfolded, if_neg (by omega), hsrc]
    constructor
    · constructor
      · intro hc
        rw [hbase] at hc
        by_contra hlt
        rw [if_neg (by omega)] at hc
        exact absurd hc (by simp)
      · intro hlt
        rw [hbase, if_pos (by omega)]
    · intro hle
      rw [hbase, if_neg (by omega)]
  · intro hvar
    have hpv : pv = Variant.Free := hvar
    subst hpv
    rw [container_unfolded, if_neg (by omega), hsrc]

/-- A concrete one-placement solution with an attached `Free` problem,
used to instantiate C5; its placement is what
`Placement::new (3x2, Normal, (1, 1))` builds. -/
def sC5w : Solution :=
  ⟨Variant.Free, false, some ⟨Variant.Free, false, [Rectangle.new 3 2], none⟩,
   [⟨Rectangle.new 3 2, Rotation.Normal, Point.new 1 1, Point.new 3 2⟩]⟩

theorem container_spec_witness :
    sC5w.container = CRes.ok (Rectangle.new 4 3) :=
  (container_spec sC5w ⟨Variant.Free, false, [Rectangle.new 3 2], none⟩
      rfl (by
        intro pl hpl
        refine ⟨Rectangle.new 3 2, Rotation.Normal, Point.new 1 1, ?_⟩
        have : pl = ⟨Rectangle.new 3 2, Rotation.Normal, Point.new 1 1, Point.new 3 2⟩ := by
          simpa [sC5w] using hpl
        subst this
        decide)).2 rfl

/-! ## C6: placement-count checking in `Solution::from_str` -/

theorem buildPlacements_ok_length (ar : Bool) :
    ∀ pairs ps, buildPlacements ar pairs = PRes.ok ps → ps.length = pairs.length := by
  intro pairs
  induction pairs with
  | nil => intro ps h; injection h with h; subst h; rfl
  | cons hd tl ih =>
    intro ps h
    unfold buildPlacements at h
    rcases hd with ⟨l, r⟩
    rcases hp : parsePlacementLine ar l with _ | v <;> rw [hp] at h
    · exact absurd h (by simp)
    · rcases v with ⟨rot, pt⟩
      simp only at h
      rcases hn : Placement.new r rot pt with _ | pl <;> rw [hn] at h
      · exact absurd h (by simp)
      · simp only at h
        rcases hrec : buildPlacements ar tl with _ | _ | ps' <;> rw [hrec] at h
        · exact absurd h (by simp)
        · exact absurd h (by simp)
        · injection h with h
          subst h
          simp [ih ps' hrec]

/-- C6 (amended): a successful `Solution::from_str` implies the placement
section had at least as many lines as the problem has rectangles, and the
parsed solution carries exactly one placement per rectangle; hence a
parse with fewer placement lines than rectangles can never succeed.
(Surplus lines, by contrast, are truncated away by the `zip` — see the
counterexample.) -/
theorem fromStr_placement_count (s pre rest : List Char) (prob : Problem)
    (sol : Solution)
    (hsplit : splitFirst placementSep s = some (pre, rest))
    (hprob : Problem.fromStr (rustTrim pre) = some prob)
    (hok : Solution.fromStr s = PRes.ok sol) :
    prob.rectangles.length ≤ (rustLines (rustTrim (placementPart rest))).length ∧
    sol.placements.length = prob.rectangles.length := by
  unfold Solution.fromStr at hok
  rw [hsplit] at hok
  simp only at hok
  rw [hprob] at hok
  simp only at hok
  rcases hb : buildPlacements prob.allow_rotation
      ((rustLines (rustTrim (placementPart rest))).zip prob.rectangles)
    with _ | _ | ps <;> rw [hb] at hok
  · exact absurd hok (by simp)
  · exact absurd hok (by simp)
  · simp only at hok
    split at hok
    · exact absurd hok (by simp)
    · rename_i hlen
      have hlen' : ps.length = prob.rectangles.length := by omega
      have hz := buildPlacements_ok_length prob.allow_rotation _ ps hb
      rw [List.length_zip] at hz
      injection hok with hok
      subst hok
      constructor
      · omega
      · simpa using hlen'

/-- A solution text with one rectangle but two placement lines. -/
def c6Input : List Char :=
  ("container height: free\nrotations allowed: no\nnumber of rectangles: 1\n1 1\nplacement of rectangles\n0 0\n5 5").data

/-- The solution the parser produces from `c6Input`: the surplus second
placement line has been dropped. -/
def c6Sol : Solution :=
  ⟨Variant.Free, false, none,
   [⟨Rectangle.new 1 1, Rotation.Normal, Point.new 0 0, Point.new 0 0⟩]⟩

/-- C6 counterexample: a placement section with more lines than the
problem has rectangles parses successfully — the surplus line is
silently dropped, not reported as an error. -/
theorem fromStr_extra_lines_accepted :
    Solution.fromStr c6Input = PRes.ok c6Sol ∧ Solution.fromStr c6Input ≠ PRes.err := by
  refine ⟨by decide, by decide⟩

/-- A two-rectangle problem whose solution text supplies only one
placement line, used to instantiate C6's theorem. -/
def c6wInput : List Char :=
  ("container height: free\nrotations allowed: no\nnumber of rectangles: 2\n1 1\n2 2\nplacement of rectangles\n0 0\n0 5").data

def c6wSol : Solution :=
  ⟨Variant.Free, false, none,
   [⟨Rectangle.new 1 1, Rotation.Normal, Point.new 0 0, Point.new 0 0⟩,
    ⟨Rectangle.new 2 2, Rotation.Normal, Point.new 0 5, Point.new 1 6⟩]⟩

theorem fromStr_placement_count_witness :
    2 ≤ (rustLines (rustTrim (placementPart
          ("\n0 0\n0 5").data))).length ∧
    c6wSol.placements.length = 2 := by
  have h := fromStr_placement_count c6wInput
    ("container height: free\nrotations allowed: no\nnumber of rectangles: 2\n1 1\n2 2\n").data
    ("\n0 0\n0 5").data
    ⟨Variant.Free, false, [Rectangle.new 1 1, Rectangle.new 2 2], none⟩
    c6wSol (by decide) (by decide) (by decide)
  exact h

/-! ## C7: totality of solution parsing over solver-controlled text -/

/-- A solver output whose echoed problem contains a width-zero
rectangle; the placement construction for it underflows
`bottom_left.x + width - 1`. -/
def c7Input : List Char :=
  ("container height: free\nrotations allowed: no\nnumber of rectangles: 1\n0 1\nplacement of rectangles\n0 0").data

/-- C7: parsing this solver-controlled text reaches the `u32` underflow
in `Placement::new` (`0 + 0 - 1`), a panic rather than a parse error:
the processing of solver output is not total. -/
theorem fromStr_zero_width_panics : Solution.fromStr c7Input = PRes.panic := by
  decide

/-! ## C8: placement-line grammar versus the rotation policy -/

/-- C8 (amended): the placement-line grammar accepts exactly-two-token
lines only when rotations are disallowed and exactly-three-token lines
(`yes|no x y`) only when they are allowed; a line whose token count does
not match the policy parses to an error, and no line parsed into a
placement can have mismatched; but only the first `n` placement lines
are ever parsed (surplus lines are ignored — see the counterexample). -/
theorem placement_line_grammar :
    (∀ l v, parsePlacementLine false l = some v → (splitWhitespace l).length = 2) ∧
    (∀ l v, parsePlacementLine true l = some v → (splitWhitespace l).length = 3) ∧
    (∀ l, (splitWhitespace l).length ≠ 2 → parsePlacementLine false l = none) ∧
    (∀ l, (splitWhitespace l).length ≠ 3 → parsePlacementLine true l = none) ∧
    (∀ l x y a b, splitWhitespace l = [x, y] →
        parseU32 x = some a → parseU32 y = some b →
        parsePlacementLine false l = some (Rotation.Normal, Point.new a b)) ∧
    (∀ l x y a b, splitWhitespace l = ["yes".data, x, y] →
        parseU32 x = some a → parseU32 y = some b →
        parsePlacementLine true l = some (Rotation.Rotated, Point.new a b)) ∧
    (∀ ar pairs ps, buildPlacements ar pairs = PRes.ok ps →
        ∀ lr ∈ pairs, parsePlacementLine ar lr.1 ≠ none) := by
  refine ⟨?_, ?_, ?_, ?_, ?_, ?_, ?_⟩
  · intro l v h
    unfold parsePlacementLine at h
    rcases hsw : splitWhitespace l with _ | ⟨x, _ | ⟨y, _ | ⟨z, rest⟩⟩⟩ <;>
      rw [hsw] at h <;> simp_all
  · intro l v h
    unfold parsePlacementLine at h
    rcases hsw : splitWhitespace l with _ | ⟨x, _ | ⟨y, _ | ⟨z, _ | ⟨w, rest⟩⟩⟩⟩ <;>
      rw [hsw] at h <;> simp_all
  · intro l hn
    unfold parsePlacementLine
    rcases hsw : splitWhitespace l with _ | ⟨x, _ | ⟨y, _ | ⟨z, rest⟩⟩⟩ <;>
      simp_all
  · intro l hn
    unfold parsePlacementLine
    rcases hsw : splitWhitespace l with _ | ⟨x, _ | ⟨y, _ | ⟨z, _ | ⟨w, rest⟩⟩⟩⟩ <;>
      simp_all
  · intro l x y a b hsw hx hy
    unfold parsePlacementLine
    rw [hsw]
    simp [hx, hy]
  · intro l x y a b hsw hx hy
    unfold parsePlacementLine
    rw [hsw]
    simp [hx, hy]
  · intro ar pairs
    induction pairs with
    | nil => intro ps h lr hmem; exact absurd hmem (by simp)
    | cons hd tl ih =>
      intro ps h lr hmem
      unfold buildPlacements at h
      rcases hd with ⟨l, r⟩
      rcases hp : parsePlacementLine ar l with _ | v <;> rw [hp] at h
      · exact absurd h (by simp)
      · rcases v with ⟨rot, pt⟩
        simp only at h
        rcases hn : Placement.new r rot pt with _ | pl <;> rw [hn] at h
        · exact absurd h (by simp)
        · simp only at h
          rcases hrec : buildPlacements ar tl with _ | _ | ps' <;> rw [hrec] at h
          · exact absurd h (by simp)
          · exact absurd h (by simp)
          · rcases List.mem_cons.mp hmem with heq | hmem'
            · subst heq; simp [hp]
            · exact ih ps' hrec lr hmem'

/-- A rotation-disallowed solution text whose surplus placement line
uses the three-token rotated grammar. -/
def c8Input : List Char :=
  ("container height: free\nrotations allowed: no\nnumber of rectangles: 1\n1 1\nplacement of rectangles\n0 0\nyes 2 2").data

def c8Sol : Solution :=
  ⟨Variant.Free, false, none,
   [⟨Rectangle.new 1 1, Rotation.Normal, Point.new 0 0, Point.new 0 0⟩]⟩

/-- C8 counterexample: under `rotations allowed: no`, a placement line
`yes 2 2` beyond the rectangle count does not cause the parse to fail —
the parse succeeds and ignores it. -/
theorem rotated_surplus_line_accepted :
    Solution.fromStr c8Input = PRes.ok c8Sol ∧ Solution.fromStr c8Input ≠ PRes.err := by
  refine ⟨by decide, by decide⟩

theorem placement_line_grammar_witness :
    parsePlacementLine false ("3 4").data = some (Rotation.Normal, Point.new 3 4) :=
  placement_line_grammar.2.2.2.2.1 ("3 4").data ("3").data ("4").data 3 4
    (by decide) (by decide) (by decide)

/-! ## C10: evaluating a solution without an attached source -/

/-- C10 (amended): `container` panics on every solution whose `source`
is `None`; `evaluate` reaches that panic whenever validation passes
(but bails with the overlap error first when it does not — see the
counterexample); and every solution produced by `Solution::from_str`
has `source = None`. -/
theorem no_source_panics :
    (∀ (s : Solution) (d : Nat), s.source = none →
        s.container = CRes.panic ∧
        (s.is_valid = true → s.evaluate d = ERes.panic)) ∧
    (∀ (t : List Char) (sol : Solution),
        Solution.fromStr t = PRes.ok sol → sol.source = none) := by
  constructor
  · intro s d hsrc
    have hcont : s.container = CRes.panic := by
      rw [container_unfolded, hsrc]
      split <;> rfl
    refine ⟨hcont, ?_⟩
    intro hv
    unfold Solution.evaluate
    rw [hv, hcont]
    simp
  · intro t sol h
    unfold Solution.fromStr at h
    rcases hs : splitFirst placementSep t with _ | ⟨pre, rest⟩ <;> rw [hs] at h
    · exact absurd h (by simp)
    · simp only at h
      rcases hp : Problem.fromStr (rustTrim pre) with _ | prob <;> rw [hp] at h
      · exact absurd h (by simp)
      · simp only at h
        rcases hb : buildPlacements prob.allow_rotation
            ((rustLines (rustTrim (placementPart rest))).zip prob.rectangles)
          with _ | _ | ps <;> rw [hb] at h
        · exact absurd h (by simp)
        · exact absurd h (by simp)
        · simp only at h
          split at h
          · exact absurd h (by simp)
          · injection h with h
            subst h
            rfl

/-- A parsed two-placement coincident solution: `evaluate` reports the
overlap error rather than panicking, although no source is attached. -/
def c10Input : List Char :=
  ("container height: free\nrotations allowed: no\nnumber of rectangles: 2\n1 1\n1 1\nplacement of rectangles\n0 0\n0 0").data

def c10Sol : Solution :=
  ⟨Variant.Free, false, none,
   [⟨Rectangle.new 1 1, Rotation.Normal, Point.new 0 0, Point.new 0 0⟩,
    ⟨Rectangle.new 1 1, Rotation.Normal, Point.new 0 0, Point.new 0 0⟩]⟩

/-- C10 counterexample: a freshly parsed solution with overlapping
placements does not panic under `evaluate` — the overlap bail comes
before the `source` unwrap, refuting `always panics regardless of the
placements`. -/
theorem parsed_overlap_evaluates_to_error :
    Solution.fromStr c10Input = PRes.ok c10Sol ∧
    c10Sol.source = none ∧
    c10Sol.evaluate 0 = ERes.err EvalErr.overlap ∧
    c10Sol.evaluate 0 ≠ ERes.panic := by
  refine ⟨by decide, by decide, by decide, by decide⟩

/-- A parsed single-placement valid solution, used to instantiate C10's
amended theorem. -/
def c10wInput : List Char :=
  ("container height: free\nrotations allowed: no\nnumber of rectangles: 1\n2 2\nplacement of rectangles\n1 1").data

def c10wSol : Solution :=
  ⟨Variant.Free, false, none,
   [⟨Rectangle.new 2 2, Rotation.Normal, Point.new 1 1, Point.new 2 2⟩]⟩

theorem no_source_panics_witness :
    c10wSol.container = CRes.panic ∧
    c10wSol.evaluate 0 = ERes.panic ∧
    c10wSol.source = none :=
  ⟨(no_source_panics.1 c10wSol 0 rfl).1,
   (no_source_panics.1 c10wSol 0 rfl).2 (by decide),
   no_source_panics.2 c10wInput c10wSol (by decide)⟩

/-! ## Generator (src/packt-core/src/problem.rs with geometry.rs splits) -/

/-- `rand::Rng::gen_range(lo, hi)` driven by the oracle value `s`:
some value in `[lo, hi)` (exactly this range whenever `lo < hi`). -/
def genRange (s lo hi : Nat) : Nat := lo + s % (hi - lo)

/-- `enum Cut { Horizontal(u32), Vertical(u32) }`. -/
inductive Cut where
  | Horizontal (y : Nat)
  | Vertical (x : Nat)
deriving DecidableEq, Repr

/-- `Rectangle::split`: the guillotine cut. -/
def Rectangle.split (r : Rectangle) : Cut → Rectangle × Rectangle
  | .Horizontal y => (Rectangle.new r.width (r.height - y), Rectangle.new r.width y)
  | .Vertical x => (Rectangle.new (r.width - x) r.height, Rectangle.new x r.height)

/-- `Rectangle::simple_rsplit`, with the random draws supplied by the
oracle values `a` and `b` (`a` is the first draw the arm makes, `b` the
second draw of the both-axes arm); `none` models the panic arms — the
`1x1` arm, the degenerate-size catch-all, and the checked `u32`
addition `w + h` that the both-axes arm feeds to `gen_range(0, w + h)`
(an overflow panic when the sum does not fit in a `u32`). -/
def Rectangle.simple_rsplit (r : Rectangle) (a b : Nat) : Option (Rectangle × Rectangle) :=
  if r.width = 1 ∧ r.height = 1 then none
  else if r.width = 1 ∧ r.height > 1 then
    some (r.split (Cut.Horizontal (genRange a 1 r.height)))
  else if r.height = 1 ∧ r.width > 1 then
    some (r.split (Cut.Vertical (genRange a 1 r.width)))
  else if r.width > 1 ∧ r.height > 1 then
    if u32size ≤ r.width + r.height then none
    else if genRange a 0 (r.width + r.height) < r.width then
      some (r.split (Cut.Vertical (genRange b 1 r.width)))
    else
      some (r.split (Cut.Horizontal (genRange b 1 r.height)))
  else none

/-- `Vec::swap_remove(i)`: the element at `i`, and the vector with the
last element moved into slot `i` and the tail popped. -/
def swapRemove (l : List Rectangle) (i : Nat) : Rectangle × List Rectangle :=
  (l.getD i (Rectangle.new 0 0),
   (l.set i (l.getLast?.getD (Rectangle.new 0 0))).dropLast)

/-- Outcome of the generator: a panic, fuel exhaustion of the (possibly
nonterminating under an adversarial oracle) splitting loop, or a
generated problem. -/
inductive GenOutcome where
  | panic
  | fuelOut
  | ok (p : Problem)
deriving DecidableEq, Repr

/-- The `while rectangles.len() < n` splitting loop of
`Problem::generate_from`: draw an index, swap-remove that rectangle,
split it when it is larger than `1x1` (pushing both pieces), otherwise
push it back.  The oracle yields per round the index draw and the two
draws `simple_rsplit` may consume; `k` counts rounds. -/
def genLoop (o : Nat → Nat × Nat × Nat) (v : Variant) (ar : Bool)
    (src : Rectangle) (n : Nat) : Nat → Nat → List Rectangle → GenOutcome
  | 0, _, l =>
    if l.length < n then .fuelOut else .ok ⟨v, ar, l, some src⟩
  | fuel + 1, k, l =>
    if l.length < n then
      if l = [] then .panic
      else
        if (swapRemove l ((o k).1 % l.length)).1.width > 1 ∨
           (swapRemove l ((o k).1 % l.length)).1.height > 1 then
          match (swapRemove l ((o k).1 % l.length)).1.simple_rsplit
              (o k).2.1 (o k).2.2 with
          | none => .panic
          | some (r1, r2) =>
            genLoop o v ar src n fuel (k + 1)
              ((swapRemove l ((o k).1 % l.length)).2 ++ [r1, r2])
        else
          genLoop o v ar src n fuel (k + 1)
            ((swapRemove l ((o k).1 % l.length)).2 ++
              [(swapRemove l ((o k).1 % l.length)).1])
    else .ok ⟨v, ar, l, some src⟩

/-- `Problem::generate_from`: panics when `n` exceeds the source area,
short-circuits to `n` unit rectangles when `n` equals it (leaving
`source` unset, as the code does on that path), and otherwise runs the
splitting loop seeded with the source rectangle. -/
def Problem.generate_from (o : Nat → Nat × Nat × Nat) (fuel : Nat)
    (r : Rectangle) (n : Nat) (v : Variant) (ar : Bool) : GenOutcome :=
  if n > r.area then .panic
  else if n = r.area then
    .ok ⟨v, ar, List.replicate n (Rectangle.new 1 1), none⟩
  else genLoop o v ar r n fuel 0 [r]

/-- The total area of a list of rectangles. -/
def areaSum (l : List Rectangle) : Nat := (l.map Rectangle.area).sum

theorem swapRemove_perm : ∀ (l : List Rectangle) (i : Nat), i < l.length →
    List.Perm ((swapRemove l i).1 :: (swapRemove l i).2) l := by
  intro l
  induction l with
  | nil => intro i h; simp at h
  | cons a t ih =>
    intro i h
    cases i with
    | zero =>
      cases t with
      | nil => simp [swapRemove]
      | cons b t' =>
        have hne : (b :: t') ≠ [] := by simp
        show List.Perm (a :: ((a :: b :: t').set 0
            (((a :: b :: t').getLast?).getD (Rectangle.new 0 0))).dropLast) _
        rw [List.getLast?_cons_cons, List.getLast?_eq_getLast_of_ne_nil hne]
        show List.Perm (a :: (((b :: t').getLast hne) :: b :: t').dropLast) _
        rw [List.dropLast_cons₂]
        refine List.Perm.cons a ?_
        have h1 : List.Perm ((b :: t').getLast hne :: (b :: t').dropLast)
            ((b :: t').dropLast ++ [(b :: t').getLast hne]) :=
          (List.perm_append_singleton _ _).symm
        have h2 : (b :: t').dropLast ++ [(b :: t').getLast hne] = b :: t' :=
          List.dropLast_append_getLast hne
        rw [h2] at h1
        exact h1
    | succ i =>
      have hlt : i < t.length := by simpa using h
      have hne : t ≠ [] := by
        intro h0; rw [h0] at hlt; simp at hlt
      obtain ⟨b, t', rfl⟩ : ∃ b t', t = b :: t' := by
        cases t with
        | nil => exact absurd rfl hne
        | cons b t' => exact ⟨b, t', rfl⟩
      have hIH := ih i hlt
      show List.Perm ((b :: t').getD i (Rectangle.new 0 0) ::
          ((a :: b :: t').set (i + 1)
            (((a :: b :: t').getLast?).getD (Rectangle.new 0 0))).dropLast) _
      rw [List.getLast?_cons_cons, List.set_cons_succ]
      have hset : ∃ c s', (b :: t').set i
          (((b :: t').getLast?).getD (Rectangle.new 0 0)) = c :: s' := by
        cases i with
        | zero => exact ⟨_, _, rfl⟩
        | succ j => exact ⟨_, _, by rw [List.set_cons_succ]⟩
      obtain ⟨c, s', hcs⟩ := hset
      rw [hcs, List.dropLast_cons₂]
      have hIH' : List.Perm ((b :: t').getD i (Rectangle.new 0 0) ::
          (c :: s').dropLast) (b :: t') := by
        rw [← hcs]; exact hIH
      have hsw : List.Perm
          ((b :: t').getD i (Rectangle.new 0 0) :: a :: (c :: s').dropLast)
          (a :: (b :: t').getD i (Rectangle.new 0 0) :: (c :: s').dropLast) :=
        List.Perm.swap a _ _
      exact hsw.trans (List.Perm.cons a hIH')

theorem swapRemove_area (l : List Rectangle) (i : Nat) (h : i < l.length) :
    (swapRemove l i).1.area + areaSum (swapRemove l i).2 = areaSum l := by
  have hp := (swapRemove_perm l i h).map Rectangle.area
  have := hp.sum_eq
  simpa [areaSum] using this

theorem swapRemove_length (l : List Rectangle) (i : Nat) (h : i < l.length) :
    (swapRemove l i).2.length + 1 = l.length := by
  have := (swapRemove_perm l i h).length_eq
  simpa using this

theorem swapRemove_fst_mem (l : List Rectangle) (i : Nat) (h : i < l.length) :
    (swapRemove l i).1 ∈ l :=
  (swapRemove_perm l i h).mem_iff.mp (by simp)

theorem swapRemove_snd_mem (l : List Rectangle) (i : Nat) (h : i < l.length)
    {x : Rectangle} (hx : x ∈ (swapRemove l i).2) : x ∈ l :=
  (swapRemove_perm l i h).mem_iff.mp (by simp [hx])

theorem simple_rsplit_area {r r1 r2 : Rectangle} {a b : Nat}
    (h : r.simple_rsplit a b = some (r1, r2)) :
    r1.area + r2.area = r.area := by
  unfold Rectangle.simple_rsplit at h
  have harith : ∀ w h' y : Nat, y ≤ h' →
      (h' - y) * w + y * w = h' * w := by
    intro w h' y hy
    rw [← Nat.add_mul]
    congr 1
    omega
  split at h
  · exact absurd h (by simp)
  · split at h
    · rename_i hc
      injection h with h
      rw [Prod.mk.injEq] at h
      obtain ⟨h1, h2⟩ := h
      subst h1; subst h2
      simp only [Rectangle.split, Rectangle.area, Rectangle.new]
      exact harith _ _ _ (by
        have : genRange a 1 r.height = 1 + a % (r.height - 1) := rfl
        have hmod : a % (r.height - 1) < r.height - 1 :=
          Nat.mod_lt _ (by omega)
        omega)
    · split at h
      · rename_i hc
        injection h with h
        rw [Prod.mk.injEq] at h
        obtain ⟨h1, h2⟩ := h
        subst h1; subst h2
        simp only [Rectangle.split, Rectangle.area, Rectangle.new]
        have hmod : a % (r.width - 1) < r.width - 1 :=
          Nat.mod_lt _ (by omega)
        have hy : genRange a 1 r.width ≤ r.width := by
          have hg : genRange a 1 r.width = 1 + a % (r.width - 1) := rfl
          omega
        rw [← Nat.mul_add]
        congr 1
        omega
      · split at h
        · rename_i hc
          split at h
          · exact absurd h (by simp)
          · split at h <;>
            · injection h with h
              rw [Prod.mk.injEq] at h
              obtain ⟨h1, h2⟩ := h
              subst h1; subst h2
              simp only [Rectangle.split, Rectangle.area, Rectangle.new]
              first
              | (have hmod : b % (r.width - 1) < r.width - 1 :=
                  Nat.mod_lt _ (by omega)
                 have hy : genRange b 1 r.width ≤ r.width := by
                   have hg : genRange b 1 r.width = 1 + b % (r.width - 1) := rfl
                   omega
                 rw [← Nat.mul_add]
                 congr 1
                 omega)
              | (have hmod : b % (r.height - 1) < r.height - 1 :=
                  Nat.mod_lt _ (by omega)
                 exact harith _ _ _ (by
                   have hg : genRange b 1 r.height = 1 + b % (r.height - 1) := rfl
                   omega))
        · exact absurd h (by simp)

theorem simple_rsplit_pos {r r1 r2 : Rectangle} {a b : Nat}
    (hw : 0 < r.width) (hh : 0 < r.height)
    (h : r.simple_rsplit a b = some (r1, r2)) :
    (0 < r1.width ∧ 0 < r1.height) ∧ (0 < r2.width ∧ 0 < r2.height) := by
  unfold Rectangle.simple_rsplit at h
  split at h
  · exact absurd h (by simp)
  · split at h
    · rename_i hc
      injection h with h
      rw [Prod.mk.injEq] at h
      obtain ⟨h1, h2⟩ := h
      subst h1; subst h2
      have hmod : a % (r.height - 1) < r.height - 1 := Nat.mod_lt _ (by omega)
      have : genRange a 1 r.height = 1 + a % (r.height - 1) := rfl
      simp only [Rectangle.split, Rectangle.new]
      exact ⟨⟨hw, by omega⟩, ⟨hw, by omega⟩⟩
    · split at h
      · rename_i hc
        injection h with h
        rw [Prod.mk.injEq] at h
        obtain ⟨h1, h2⟩ := h
        subst h1; subst h2
        have hmod : a % (r.width - 1) < r.width - 1 := Nat.mod_lt _ (by omega)
        have : genRange a 1 r.width = 1 + a % (r.width - 1) := rfl
        simp only [Rectangle.split, Rectangle.new]
        exact ⟨⟨by omega, hh⟩, ⟨by omega, hh⟩⟩
      · split at h
        · rename_i hc
          split at h
          · exact absurd h (by simp)
          · split at h <;>
            · injection h with h
              rw [Prod.mk.injEq] at h
              obtain ⟨h1, h2⟩ := h
              subst h1; subst h2
              simp only [Rectangle.split, Rectangle.new]
              first
              | (have hmod : b % (r.width - 1) < r.width - 1 :=
                  Nat.mod_lt _ (by omega)
                 have : genRange b 1 r.width = 1 + b % (r.width - 1) := rfl
                 exact ⟨⟨by omega, hh⟩, ⟨by omega, hh⟩⟩)
              | (have hmod : b % (r.height - 1) < r.height - 1 :=
                  Nat.mod_lt _ (by omega)
                 have : genRange b 1 r.height = 1 + b % (r.height - 1) := rfl
                 exact ⟨⟨hw, by omega⟩, ⟨hw, by omega⟩⟩)
        · exact absurd h (by simp)

theorem areaSum_append (xs ys : List Rectangle) :
    areaSum (xs ++ ys) = areaSum xs + areaSum ys := by
  simp [areaSum]

theorem areaSum_cons (x : Rectangle) (xs : List Rectangle) :
    areaSum (x :: xs) = x.area + areaSum xs := by
  simp [areaSum]

theorem areaSum_nil : areaSum [] = 0 := rfl

theorem simple_rsplit_sum_le {r r1 r2 : Rectangle} {a b : Nat}
    (h : r.simple_rsplit a b = some (r1, r2)) :
    r1.width + r1.height ≤ r.width + r.height ∧
    r2.width + r2.height ≤ r.width + r.height := by
  unfold Rectangle.simple_rsplit at h
  split at h
  · exact absurd h (by simp)
  · split at h
    · rename_i hc
      injection h with h
      rw [Prod.mk.injEq] at h
      obtain ⟨h1, h2⟩ := h
      subst h1; subst h2
      have hmod : a % (r.height - 1) < r.height - 1 := Nat.mod_lt _ (by omega)
      have hg : genRange a 1 r.height = 1 + a % (r.height - 1) := rfl
      simp only [Rectangle.split, Rectangle.new]
      constructor <;> omega
    · split at h
      · rename_i hc
        injection h with h
        rw [Prod.mk.injEq] at h
        obtain ⟨h1, h2⟩ := h
        subst h1; subst h2
        have hmod : a % (r.width - 1) < r.width - 1 := Nat.mod_lt _ (by omega)
        have hg : genRange a 1 r.width = 1 + a % (r.width - 1) := rfl
        simp only [Rectangle.split, Rectangle.new]
        constructor <;> omega
      · split at h
        · rename_i hc
          split at h
          · exact absurd h (by simp)
          · split at h <;>
            · injection h with h
              rw [Prod.mk.injEq] at h
              obtain ⟨h1, h2⟩ := h
              subst h1; subst h2
              simp only [Rectangle.split, Rectangle.new]
              first
              | (have hmod : b % (r.width - 1) < r.width - 1 :=
                  Nat.mod_lt _ (by omega)
                 have hg : genRange b 1 r.width = 1 + b % (r.width - 1) := rfl
                 constructor <;> omega)
              | (have hmod : b % (r.height - 1) < r.height - 1 :=
                  Nat.mod_lt _ (by omega)
                 have hg : genRange b 1 r.height = 1 + b % (r.height - 1) := rfl
                 constructor <;> omega)
        · exact absurd h (by simp)

theorem simple_rsplit_isSome {r : Rectangle} (a b : Nat)
    (hw : 0 < r.width) (hh : 0 < r.height)
    (hwh : r.width + r.height < u32size)
    (hbig : r.width > 1 ∨ r.height > 1) :
    ∃ r1 r2, r.simple_rsplit a b = some (r1, r2) := by
  unfold Rectangle.simple_rsplit
  split
  · rename_i hc; omega
  · split
    · exact ⟨_, _, rfl⟩
    · split
      · exact ⟨_, _, rfl⟩
      · split
        · split
          · rename_i hov; omega
          · split
            · exact ⟨_, _, rfl⟩
            · exact ⟨_, _, rfl⟩
        · rename_i h1 h2 h3 h4; omega

/-- Partial correctness of the splitting loop: whatever the oracle and
the fuel, a returned problem has exactly `n` rectangles (given the loop
was entered with between `1` and `n` of them) and its rectangles' areas
sum to the invariant total. -/
theorem genLoop_ok (o : Nat → Nat × Nat × Nat) (v : Variant) (ar : Bool)
    (src : Rectangle) (n : Nat) (A : Nat) :
    ∀ (fuel k : Nat) (l : List Rectangle) (p : Problem),
      areaSum l = A → 1 ≤ l.length → l.length ≤ n →
      genLoop o v ar src n fuel k l = GenOutcome.ok p →
      p.rectangles.length = n ∧ areaSum p.rectangles = A := by
  intro fuel
  induction fuel with
  | zero =>
    intro k l p hA h1 h2 h
    unfold genLoop at h
    split at h
    · exact absurd h (by simp)
    · rename_i hge
      injection h with h
      subst h
      exact ⟨by simp only []; omega, by simpa using hA⟩
  | succ fuel ih =>
    intro k l p hA h1 h2 h
    unfold genLoop at h
    split at h
    · rename_i hlt
      split at h
      · exact absurd h (by simp)
      · rename_i hnil
        have hpos : 0 < l.length := List.length_pos.mpr hnil
        have hidx : (o k).1 % l.length < l.length := Nat.mod_lt _ hpos
        have harea := swapRemove_area l ((o k).1 % l.length) hidx
        have hlen := swapRemove_length l ((o k).1 % l.length) hidx
        split at h
        · rename_i hbig
          split at h
          · exact absurd h (by simp)
          · rename_i r1 r2 hsp
            have hsa := simple_rsplit_area hsp
            refine ih (k + 1) _ p ?_ ?_ ?_ h
            · rw [areaSum_append, areaSum_cons, areaSum_cons, areaSum_nil]
              omega
            · simp only [List.length_append, List.length_cons, List.length_nil]
              omega
            · simp only [List.length_append, List.length_cons, List.length_nil]
              omega
        · refine ih (k + 1) _ p ?_ ?_ ?_ h
          · rw [areaSum_append, areaSum_cons, areaSum_nil]
            omega
          · simp only [List.length_append, List.length_cons, List.length_nil]
            omega
          · simp only [List.length_append, List.length_cons, List.length_nil]
            omega
    · rename_i hge
      injection h with h
      subst h
      exact ⟨by simp only []; omega, by simpa using hA⟩

/-- The splitting loop cannot panic while the working set is nonempty
and every rectangle in it has positive width and height whose sum fits
in a `u32`: the swap-removed rectangle is only split when it is larger
than `1x1`, so `simple_rsplit`'s `1x1` arm, degenerate catch-all and
`w + h` overflow are all unreachable, and the pieces keep positive
dimensions with no larger a sum. -/
theorem genLoop_no_panic (o : Nat → Nat × Nat × Nat) (v : Variant) (ar : Bool)
    (src : Rectangle) (n : Nat) :
    ∀ (fuel k : Nat) (l : List Rectangle),
      1 ≤ l.length →
      (∀ x ∈ l, 0 < x.width ∧ 0 < x.height ∧ x.width + x.height < u32size) →
      genLoop o v ar src n fuel k l ≠ GenOutcome.panic := by
  intro fuel
  induction fuel with
  | zero =>
    intro k l h1 hpos
    unfold genLoop
    split <;> simp
  | succ fuel ih =>
    intro k l h1 hpos
    unfold genLoop
    split
    · rename_i hlt
      split
      · rename_i hnil
        rw [hnil] at h1
        simp at h1
      · rename_i hnil
        have hpl : 0 < l.length := List.length_pos.mpr hnil
        have hidx : (o k).1 % l.length < l.length := Nat.mod_lt _ hpl
        have hfst := swapRemove_fst_mem l ((o k).1 % l.length) hidx
        have hfpos := hpos _ hfst
        have hlen := swapRemove_length l ((o k).1 % l.length) hidx
        split
        · rename_i hbig
          obtain ⟨r1, r2, hsp⟩ := simple_rsplit_isSome (o k).2.1 (o k).2.2
            hfpos.1 hfpos.2.1 hfpos.2.2 (by omega)
          rw [hsp]
          have hppos := simple_rsplit_pos hfpos.1 hfpos.2.1 hsp
          have hsum := simple_rsplit_sum_le hsp
          refine ih (k + 1) _ ?_ ?_
          · simp only [List.length_append, List.length_cons, List.length_nil]
            omega
          · intro x hx
            rcases List.mem_append.mp hx with hx | hx
            · exact hpos x (swapRemove_snd_mem l _ hidx hx)
            · rcases List.mem_cons.mp hx with rfl | hx
              · exact ⟨hppos.1.1, hppos.1.2, by
                  have := hfpos.2.2
                  omega⟩
              · rcases List.mem_cons.mp hx with rfl | hx
                · exact ⟨hppos.2.1, hppos.2.2, by
                    have := hfpos.2.2
                    omega⟩
                · exact absurd hx (by simp)
        · refine ih (k + 1) _ ?_ ?_
          · simp only [List.length_append, List.length_cons, List.length_nil]
            omega
          · intro x hx
            rcases List.mem_append.mp hx with hx | hx
            · exact hpos x (swapRemove_snd_mem l _ hidx hx)
            · rcases List.mem_cons.mp hx with rfl | hx
              · exact hfpos
              · exact absurd hx (by simp)
    · simp

/-! ## C9: when `generate_from` panics -/

/-- C9 (amended): `Problem::generate_from` panics whenever `n` exceeds
the source rectangle's area; and provided the source's `width + height`
fits in a `u32`, it panics exactly when `n` exceeds the area — under
`n ≤ area` no panic is then reachable, in particular `simple_rsplit`'s
`1x1` panic arm is never taken because the loop only splits rectangles
with width or height above one.  Without the `width + height` bound the
equivalence fails: the both-axes arm computes `w + h` on `u32` for its
axis draw, which overflows for a valid source such as `2^31 x 2^31`
even with `n ≤ area` — see the counterexample. -/
theorem generate_from_panic_characterization (o : Nat → Nat × Nat × Nat)
    (fuel : Nat) (r : Rectangle) (n : Nat) (v : Variant) (ar : Bool) :
    (r.area < n → Problem.generate_from o fuel r n v ar = GenOutcome.panic) ∧
    (r.width + r.height < u32size →
      (Problem.generate_from o fuel r n v ar = GenOutcome.panic ↔
        r.area < n)) := by
  constructor
  · intro h
    unfold Problem.generate_from
    rw [if_pos (by omega)]
  · intro hwh
    constructor
    · intro h
      by_contra hle
      unfold Problem.generate_from at h
      rw [if_neg (by omega)] at h
      split at h
      · exact absurd h (by simp)
      · rename_i hne
        have harea : 0 < r.area := by omega
        have hw : 0 < r.width := by
          rcases Nat.eq_zero_or_pos r.width with h0 | hp
          · rw [Rectangle.area, h0, Nat.mul_zero] at harea
            omega
          · exact hp
        have hh : 0 < r.height := by
          rcases Nat.eq_zero_or_pos r.height with h0 | hp
          · rw [Rectangle.area, h0, Nat.zero_mul] at harea
            omega
          · exact hp
        exact genLoop_no_panic o v ar r n fuel 0 [r] (by simp)
          (by intro x hx; rcases List.mem_cons.mp hx with rfl | hx
              · exact ⟨hw, hh, hwh⟩
              · exact absurd hx (by simp)) h
    · intro h
      unfold Problem.generate_from
      rw [if_pos (by omega)]

/-- The constant oracle used to instantiate the generator theorems. -/
def oracle0 : Nat → Nat × Nat × Nat := fun _ => (0, 0, 0)

/-- C9 counterexample: for the valid `2^31 x 2^31` source rectangle and
`n = 2 ≤ area`, the first iteration swap-removes the source, takes the
both-axes arm and computes `w + h = 2^32` on `u32` for the axis draw —
an overflow panic, although `n` does not exceed the area. -/
theorem generate_from_overflow_panic_cex :
    Problem.generate_from oracle0 5 (Rectangle.new 2147483648 2147483648) 2
      Variant.Free false = GenOutcome.panic ∧
    2 ≤ (Rectangle.new 2147483648 2147483648).area := by
  refine ⟨by decide, by decide⟩

theorem generate_from_panic_characterization_witness :
    Problem.generate_from oracle0 5 (Rectangle.new 2 1) 3 Variant.Free false
      = GenOutcome.panic ∧
    (Problem.generate_from oracle0 5 (Rectangle.new 2 2) 2 Variant.Free false
      = GenOutcome.panic ↔ (Rectangle.new 2 2).area < 2) :=
  ⟨(generate_from_panic_characterization oracle0 5 (Rectangle.new 2 1) 3
      Variant.Free false).1 (by decide),
   (generate_from_panic_characterization oracle0 5 (Rectangle.new 2 2) 2
      Variant.Free false).2 (by decide)⟩

/-! ## C2: rectangle count and area preservation of `generate_from` -/

/-- C2 (amended): for `1 ≤ n ≤ area(r)`, whenever the generator returns
a problem (whatever the oracle and the fuel) that problem has exactly
`n` rectangles and their areas sum to `area(r)` — every guillotine split
replaces one rectangle by two of the same total area, and the
`n = area` short-circuit yields `n` unit rectangles.  (For `n = 0` the
claim fails: the loop is never entered and the single source rectangle
is returned — see the counterexample.) -/
theorem generate_from_count_and_area (o : Nat → Nat × Nat × Nat)
    (fuel : Nat) (r : Rectangle) (n : Nat) (v : Variant) (ar : Bool)
    (p : Problem) (h1 : 1 ≤ n) (h2 : n ≤ r.area)
    (hok : Problem.generate_from o fuel r n v ar = GenOutcome.ok p) :
    p.rectangles.length = n ∧ areaSum p.rectangles = r.area := by
  unfold Problem.generate_from at hok
  rw [if_neg (by omega)] at hok
  by_cases he : n = r.area
  · rw [if_pos he] at hok
    injection hok with hok
    subst hok
    constructor
    · simp
    · simp only [areaSum, List.map_replicate, List.sum_replicate, smul_eq_mul]
      rw [he]
      simp [Rectangle.area, Rectangle.new]
  · rw [if_neg he] at hok
    exact genLoop_ok o v ar r n r.area fuel 0 [r] p
      (by simp [areaSum]) (by simp) (by simp; omega) hok

/-- The problem produced by the generator for a 2x2 source and `n = 2`
under the constant oracle: one vertical cut at offset one. -/
def pC2w : Problem :=
  ⟨Variant.Free, false, [Rectangle.new 1 2, Rectangle.new 1 2],
   some (Rectangle.new 2 2)⟩

theorem generate_from_count_and_area_witness :
    pC2w.rectangles.length = 2 ∧ areaSum pC2w.rectangles = (Rectangle.new 2 2).area :=
  generate_from_count_and_area oracle0 5 (Rectangle.new 2 2) 2 Variant.Free false
    pC2w (by decide) (by decide) (by decide)

/-- The problem `generate_from` returns for `n = 0` on a `2x1` source:
the loop exits immediately, leaving the single source rectangle. -/
def pC2cex : Problem :=
  ⟨Variant.Free, false, [Rectangle.new 2 1], some (Rectangle.new 2 1)⟩

/-- C2 counterexample: `n = 0` satisfies `n ≤ area(r)` but the returned
problem has one rectangle, not zero. -/
theorem generate_from_n_zero_cex :
    Problem.generate_from oracle0 5 (Rectangle.new 2 1) 0 Variant.Free false
      = GenOutcome.ok pC2cex ∧
    (0 : Nat) ≤ (Rectangle.new 2 1).area ∧
    pC2cex.rectangles.length ≠ 0 := by
  refine ⟨by decide, by decide, by decide⟩

/-! ## C4 infrastructure: splitter lemmas -/

theorem splitPred_ne_nil (p : Char → Bool) : ∀ s, splitPred p s ≠ [] := by
  intro s
  cases s with
  | nil => simp [splitPred]
  | cons c cs =>
    unfold splitPred
    split
    · simp
    · cases h : splitPred p cs with
      | nil => simp
      | cons g gs => simp

theorem splitPred_cons_pos {p : Char → Bool} {c : Char} (cs : List Char)
    (hc : p c = true) : splitPred p (c :: cs) = [] :: splitPred p cs := by
  show (if p c = true then _ else _) = _
  rw [if_pos hc]

theorem splitPred_cons_neg {p : Char → Bool} {c : Char} {cs g : List Char}
    {gs : List (List Char)} (hc : ¬ p c = true)
    (h : splitPred p cs = g :: gs) :
    splitPred p (c :: cs) = (c :: g) :: gs := by
  show (if p c = true then _ else _) = _
  rw [if_neg hc, h]

theorem splitPred_word (p : Char → Bool) :
    ∀ s, (∀ c ∈ s, p c = false) → splitPred p s = [s] := by
  intro s
  induction s with
  | nil => intro _; rfl
  | cons x xs ih =>
    intro hall
    have hx : p x = false := hall x (by simp)
    rw [splitPred_cons_neg (by simp [hx])
      (ih (fun c hc => hall c (by simp [hc])))]

theorem splitPred_append_sep (p : Char → Bool) (c : Char) (hc : p c = true) :
    ∀ xs ys, splitPred p (xs ++ c :: ys) = splitPred p xs ++ splitPred p ys := by
  intro xs
  induction xs with
  | nil =>
    intro ys
    simp only [List.nil_append]
    rw [splitPred_cons_pos ys hc]
    rfl
  | cons x xs ih =>
    intro ys
    simp only [List.cons_append]
    by_cases hx : p x = true
    · rw [splitPred_cons_pos _ hx, splitPred_cons_pos _ hx, ih ys]
      rfl
    · cases h : splitPred p xs with
      | nil => exact absurd h (splitPred_ne_nil p xs)
      | cons g gs =>
        have h3 : splitPred p (xs ++ c :: ys)
            = g :: (gs ++ splitPred p ys) := by
          rw [ih ys, h]
          rfl
        rw [splitPred_cons_neg hx h3, splitPred_cons_neg hx h]
        rfl

theorem mem_of_mem_splitPred (p : Char → Bool) :
    ∀ s g, g ∈ splitPred p s → ∀ c ∈ g, c ∈ s := by
  intro s
  induction s with
  | nil =>
    intro g hg c hc
    simp [splitPred] at hg
    subst hg
    simp at hc
  | cons x xs ih =>
    intro g hg c hc
    by_cases hx : p x = true
    · rw [splitPred_cons_pos _ hx] at hg
      rcases List.mem_cons.mp hg with rfl | hg'
      · simp at hc
      · exact List.mem_cons_of_mem x (ih g hg' c hc)
    · cases h : splitPred p xs with
      | nil => exact absurd h (splitPred_ne_nil p xs)
      | cons g0 gs =>
        rw [splitPred_cons_neg hx h] at hg
        rcases List.mem_cons.mp hg with rfl | hg'
        · rcases List.mem_cons.mp hc with rfl | hc'
          · simp
          · exact List.mem_cons_of_mem x (ih g0 (by rw [h]; simp) c hc')
        · exact List.mem_cons_of_mem x (ih g (by rw [h]; simp [hg']) c hc)

theorem rustLines_clean (s : List Char) (hne : s ≠ [])
    (hlast : s.getLast? ≠ some '\n') (hcr : ∀ c ∈ s, c ≠ '\r') :
    rustLines s = splitPred (fun c => c = '\n') s := by
  cases s with
  | nil => exact absurd rfl hne
  | cons a s' =>
    unfold rustLines
    rw [if_neg hlast]
    cases h : (splitPred (fun c => c = '\n') (a :: s')).reverse with
    | nil => exact absurd (List.reverse_eq_nil_iff.mp h) (splitPred_ne_nil _ _)
    | cons lastSeg revInit =>
      have hsp : splitPred (fun c => c = '\n') (a :: s')
          = revInit.reverse ++ [lastSeg] := by
        have h2 := congrArg List.reverse h
        rw [List.reverse_reverse] at h2
        rw [h2]
        simp
      have hid : revInit.reverse.map stripCR = revInit.reverse := by
        have hstep : ∀ l ∈ revInit.reverse, stripCR l = l := by
          intro l hl
          have hlsp : l ∈ splitPred (fun c => c = '\n') (a :: s') := by
            rw [hsp]
            exact List.mem_append.mpr (Or.inl hl)
          unfold stripCR
          rw [if_neg ?_]
          intro hcrl
          have hmem : '\r' ∈ l := List.mem_of_mem_getLast? (by rw [hcrl]; rfl)
          exact hcr '\r' (mem_of_mem_splitPred _ _ l hlsp '\r' hmem) rfl
        have := List.map_congr_left (f := stripCR) (g := id) (fun x hx => hstep x hx)
        rw [this, List.map_id]
      rw [hsp, ← hid]

theorem splitWhitespace_append_space (xs ys : List Char) :
    splitWhitespace (xs ++ ' ' :: ys)
      = splitWhitespace xs ++ splitWhitespace ys := by
  unfold splitWhitespace
  rw [splitPred_append_sep isWhite ' ' (by decide), List.filter_append]

theorem splitWhitespace_word (w : List Char) (hne : w ≠ [])
    (hw : ∀ c ∈ w, isWhite c = false) : splitWhitespace w = [w] := by
  unfold splitWhitespace
  rw [splitPred_word isWhite w hw]
  cases w with
  | nil => exact absurd rfl hne
  | cons c cs => simp [List.filter]

/-! ## C4 infrastructure: decimal rendering and parsing -/

theorem natDigitsAux_fuel : ∀ f1 f2 n, n ≤ f1 → n ≤ f2 →
    natDigitsAux f1 n = natDigitsAux f2 n := by
  intro f1
  induction f1 with
  | zero =>
    intro f2 n h1 h2
    have hn : n = 0 := by omega
    subst hn
    cases f2 <;> rfl
  | succ f1 ih =>
    intro f2 n h1 h2
    cases n with
    | zero => cases f2 <;> rfl
    | succ n' =>
      cases f2 with
      | zero => omega
      | succ f2' =>
        show ((n' + 1) % 10) :: natDigitsAux f1 ((n' + 1) / 10)
            = ((n' + 1) % 10) :: natDigitsAux f2' ((n' + 1) / 10)
        congr 1
        exact ih f2' ((n' + 1) / 10) (by omega) (by omega)

theorem natDigits_cons (n : Nat) (hn : 0 < n) :
    natDigits n = n % 10 :: natDigits (n / 10) := by
  cases n with
  | zero => omega
  | succ n' =>
    show ((n' + 1) % 10) :: natDigitsAux n' ((n' + 1) / 10)
        = ((n' + 1) % 10) :: natDigitsAux ((n' + 1) / 10) ((n' + 1) / 10)
    congr 1
    exact natDigitsAux_fuel n' ((n' + 1) / 10) ((n' + 1) / 10) (by omega) (by omega)

theorem natDigitsAux_lt_ten : ∀ fuel n d, d ∈ natDigitsAux fuel n → d < 10 := by
  intro fuel
  induction fuel with
  | zero => intro n d hd; simp [natDigitsAux] at hd
  | succ f ih =>
    intro n d hd
    cases n with
    | zero => simp [natDigitsAux] at hd
    | succ n' =>
      have hd' : d ∈ ((n' + 1) % 10) :: natDigitsAux f ((n' + 1) / 10) := hd
      rcases List.mem_cons.mp hd' with rfl | hd2
      · exact Nat.mod_lt _ (by omega)
      · exact ih _ d hd2

theorem digitChar_facts (d : Nat) (hd : d < 10) :
    (digitChar d).isDigit = true ∧ (digitChar d).toNat = 48 + d ∧
    isWhite (digitChar d) = false ∧ digitChar d ≠ '\n' ∧
    digitChar d ≠ '\r' ∧ digitChar d ≠ '+' := by
  interval_cases d <;>
    exact ⟨by decide, by decide, by decide, by decide, by decide, by decide⟩

/-- The digit block of `natToStr` (empty for zero). -/
def bodyStr (n : Nat) : List Char := ((natDigits n).map digitChar).reverse

theorem bodyStr_succ (n : Nat) (hn : 0 < n) :
    bodyStr n = bodyStr (n / 10) ++ [digitChar (n % 10)] := by
  unfold bodyStr
  rw [natDigits_cons n hn]
  simp

theorem natToStr_eq_bodyStr (n : Nat) (hn : 0 < n) : natToStr n = bodyStr n := by
  unfold natToStr bodyStr
  rw [if_neg (by omega)]

theorem natToStr_char_facts (n : Nat) : ∀ c ∈ natToStr n,
    c.isDigit = true ∧ isWhite c = false ∧ c ≠ '\n' ∧ c ≠ '\r' ∧ c ≠ '+' := by
  intro c hc
  unfold natToStr at hc
  split at hc
  · simp at hc
    subst hc
    exact ⟨by decide, by decide, by decide, by decide, by decide⟩
  · rw [List.mem_reverse] at hc
    rcases List.mem_map.mp hc with ⟨d, hd, rfl⟩
    have h10 := natDigitsAux_lt_ten _ _ d hd
    obtain ⟨h1, h2, h3, h4, h5, h6⟩ := digitChar_facts d h10
    exact ⟨h1, h3, h4, h5, h6⟩

theorem natToStr_ne_nil (n : Nat) : natToStr n ≠ [] := by
  rcases Nat.eq_zero_or_pos n with rfl | hn
  · decide
  · rw [natToStr_eq_bodyStr n hn, bodyStr_succ n hn]
    simp

theorem digitsVal_append (xs ys : List Char) :
    ∀ acc, digitsVal acc (xs ++ ys)
      = (digitsVal acc xs).bind (fun v => digitsVal v ys) := by
  induction xs with
  | nil => intro acc; rfl
  | cons c cs ih =>
    intro acc
    simp only [List.cons_append]
    show (if c.isDigit then _ else _) = ((if c.isDigit then _ else _) :
        Option Nat).bind _
    by_cases hdig : c.isDigit
    · rw [if_pos hdig, if_pos hdig]
      by_cases hov : acc * 10 + (c.toNat - 48) < u32size
      · rw [if_pos hov, if_pos hov, ih]
      · rw [if_neg hov, if_neg hov]
        rfl
    · rw [if_neg hdig, if_neg hdig]
      rfl

theorem digitsVal_bodyStr :
    ∀ n acc, acc * 10 ^ (natDigits n).length + n < u32size →
      digitsVal acc (bodyStr n) = some (acc * 10 ^ (natDigits n).length + n) := by
  intro n
  induction n using Nat.strong_induction_on with
  | _ n ih =>
    intro acc hbound
    rcases Nat.eq_zero_or_pos n with rfl | hn
    · simp [bodyStr, natDigits, natDigitsAux, digitsVal]
    · rw [bodyStr_succ n hn, digitsVal_append]
      have hlen : (natDigits n).length = (natDigits (n / 10)).length + 1 := by
        rw [natDigits_cons n hn]
        rfl
      rw [hlen] at hbound ⊢
      have hE : acc * 10 ^ ((natDigits (n / 10)).length + 1)
          = (acc * 10 ^ (natDigits (n / 10)).length) * 10 := by
        rw [pow_succ, ← mul_assoc]
      rw [hE] at hbound ⊢
      have hih := ih (n / 10) (Nat.div_lt_self hn (by omega)) acc (by omega)
      rw [hih]
      have hd10 : n % 10 < 10 := Nat.mod_lt _ (by omega)
      obtain ⟨hdig, htn, -, -, -, -⟩ := digitChar_facts (n % 10) hd10
      show digitsVal _ [digitChar (n % 10)] = _
      show (if (digitChar (n % 10)).isDigit then _ else _) = _
      rw [if_pos hdig, htn]
      have h48 : 48 + n % 10 - 48 = n % 10 := by omega
      rw [h48, if_pos (by omega)]
      show some _ = some _
      congr 1
      omega

theorem parseU32_natToStr (n : Nat) (hn : n < u32size) :
    parseU32 (natToStr n) = some n := by
  rcases Nat.eq_zero_or_pos n with rfl | hpos
  · decide
  · rw [natToStr_eq_bodyStr n hpos]
    have hne : bodyStr n ≠ [] := by
      rw [← natToStr_eq_bodyStr n hpos]
      exact natToStr_ne_nil n
    obtain ⟨c, cs, hcs⟩ : ∃ c cs, bodyStr n = c :: cs := by
      cases h : bodyStr n with
      | nil => exact absurd h hne
      | cons c cs => exact ⟨c, cs, rfl⟩
    have hcfacts : c.isDigit = true ∧ c ≠ '+' := by
      have hmem : c ∈ natToStr n := by
        rw [natToStr_eq_bodyStr n hpos, hcs]
        simp
      obtain ⟨h1, -, -, -, h5⟩ := natToStr_char_facts n c hmem
      exact ⟨h1, h5⟩
    unfold parseU32
    rw [hcs]
    rw [if_neg (by simp [hcfacts.2])]
    rw [if_neg (by simp)]
    rw [← hcs]
    have hkey := digitsVal_bodyStr n 0 (by simpa using hn)
    rw [hkey]
    simp

/-! ## C4 infrastructure: the lines of a formatted problem -/

theorem variant_format_chars (v : Variant) :
    ∀ c ∈ v.format, c ≠ '\n' ∧ c ≠ '\r' := by
  intro c hc
  cases v with
  | Free =>
    exact (by decide : ∀ c ∈ "free".data, c ≠ '\n' ∧ c ≠ '\r') c hc
  | Fixed h =>
    rcases List.mem_append.mp hc with hc | hc
    · exact (by decide : ∀ c ∈ "fixed ".data, c ≠ '\n' ∧ c ≠ '\r') c hc
    · obtain ⟨-, -, h3, h4, -⟩ := natToStr_char_facts h c hc
      exact ⟨h3, h4⟩

theorem rect_format_chars (r : Rectangle) :
    ∀ c ∈ r.format, c ≠ '\n' ∧ c ≠ '\r' := by
  intro c hc
  unfold Rectangle.format at hc
  rcases List.mem_append.mp hc with hc | hc
  · obtain ⟨-, -, h3, h4, -⟩ := natToStr_char_facts r.width c hc
    exact ⟨h3, h4⟩
  · rcases List.mem_cons.mp hc with rfl | hc
    · exact ⟨by decide, by decide⟩
    · obtain ⟨-, -, h3, h4, -⟩ := natToStr_char_facts r.height c hc
      exact ⟨h3, h4⟩

theorem natToStr_getLast_digit (n : Nat) :
    ∃ c, (natToStr n).getLast? = some c ∧ c.isDigit = true := by
  have hne := natToStr_ne_nil n
  exact ⟨(natToStr n).getLast hne, List.getLast?_eq_getLast_of_ne_nil hne,
    (natToStr_char_facts n _ (List.getLast_mem hne)).1⟩

theorem rect_format_ne_nil (r : Rectangle) : r.format ≠ [] := by
  unfold Rectangle.format
  simp

theorem rect_format_getLast (r : Rectangle) :
    ∃ c, (r.format).getLast? = some c ∧ c.isDigit = true := by
  obtain ⟨c, hc, hd⟩ := natToStr_getLast_digit r.height
  refine ⟨c, ?_, hd⟩
  unfold Rectangle.format
  rw [List.getLast?_append_of_ne_nil _ (by simp)]
  have hsh : (' ' :: natToStr r.height) = [' '] ++ natToStr r.height := rfl
  rw [hsh, List.getLast?_append_of_ne_nil _ (natToStr_ne_nil r.height), hc]

theorem flatten_chunks_getLast : ∀ (rs : List Rectangle), rs ≠ [] →
    ∃ c, ((rs.map (fun q => '\n' :: q.format)).flatten).getLast? = some c ∧
      c.isDigit = true := by
  intro rs
  induction rs with
  | nil => intro h; exact absurd rfl h
  | cons r rs ih =>
    intro _
    simp only [List.map_cons, List.flatten_cons]
    by_cases hrs : rs = []
    · subst hrs
      simp only [List.map_nil, List.flatten_nil, List.append_nil]
      obtain ⟨c, hc, hd⟩ := rect_format_getLast r
      refine ⟨c, ?_, hd⟩
      have hsh : ('\n' :: r.format) = ['\n'] ++ r.format := rfl
      rw [hsh, List.getLast?_append_of_ne_nil _ (rect_format_ne_nil r), hc]
    · obtain ⟨c, hc, hd⟩ := ih hrs
      refine ⟨c, ?_, hd⟩
      rw [List.getLast?_append_of_ne_nil _ ?_, hc]
      intro h0
      rw [h0] at hc
      simp at hc

theorem isDigit_ne_nl {c : Char} (hd : c.isDigit = true) : c ≠ '\n' := by
  intro h
  rw [h] at hd
  exact absurd hd (by decide)

theorem splitPred_line_flatten :
    ∀ (rs : List Rectangle) (L : List Char),
      (∀ c ∈ L, ¬ c = '\n') → (∀ r ∈ rs, ∀ c ∈ r.format, ¬ c = '\n') →
      splitPred (fun c => c = '\n')
          (L ++ (rs.map (fun r => '\n' :: r.format)).flatten)
        = L :: rs.map Rectangle.format := by
  intro rs
  induction rs with
  | nil =>
    intro L hL _
    simp only [List.map_nil, List.flatten_nil, List.append_nil]
    exact splitPred_word _ L (fun c hc => by simp [hL c hc])
  | cons r rs ih =>
    intro L hL hrs
    simp only [List.map_cons, List.flatten_cons]
    have hsh : L ++ (('\n' :: r.format)
        ++ ((rs.map (fun q => '\n' :: q.format)).flatten))
        = L ++ '\n' :: (r.format
          ++ (rs.map (fun q => '\n' :: q.format)).flatten) := by simp
    rw [hsh, splitPred_append_sep _ '\n' (by decide),
      splitPred_word _ L (fun c hc => by simp [hL c hc]),
      ih r.format (hrs r (by simp)) (fun q hq => hrs q (by simp [hq]))]
    rfl

theorem rustLines_block (A B C : List Char) (rs : List Rectangle)
    (hA : ∀ c ∈ A, c ≠ '\n' ∧ c ≠ '\r')
    (hB : ∀ c ∈ B, c ≠ '\n' ∧ c ≠ '\r')
    (hC : ∀ c ∈ C, c ≠ '\n' ∧ c ≠ '\r')
    (hlast : ∃ c, (C ++ (rs.map (fun r => '\n' :: r.format)).flatten).getLast?
        = some c ∧ c.isDigit = true) :
    rustLines (A ++ '\n' :: (B ++ '\n'
        :: (C ++ (rs.map (fun r => '\n' :: r.format)).flatten)))
      = A :: B :: C :: rs.map Rectangle.format := by
  obtain ⟨clast, hclast, hdlast⟩ := hlast
  have hgl : (A ++ '\n' :: (B ++ '\n'
      :: (C ++ (rs.map (fun r => '\n' :: r.format)).flatten))).getLast?
      = some clast := by
    rw [List.getLast?_append_of_ne_nil _ (by simp)]
    have h1 : ('\n' :: (B ++ '\n'
        :: (C ++ (rs.map (fun r => '\n' :: r.format)).flatten)))
        = ['\n'] ++ (B ++ '\n'
        :: (C ++ (rs.map (fun r => '\n' :: r.format)).flatten)) := rfl
    rw [h1, List.getLast?_append_of_ne_nil _ (by simp),
      List.getLast?_append_of_ne_nil _ (by simp)]
    have h2 : ('\n' :: (C ++ (rs.map (fun r => '\n' :: r.format)).flatten))
        = ['\n'] ++ (C ++ (rs.map (fun r => '\n' :: r.format)).flatten) := rfl
    rw [h2, List.getLast?_append_of_ne_nil _ ?_, hclast]
    intro h0
    rw [h0] at hclast
    simp at hclast
  have hcr : ∀ c ∈ (A ++ '\n' :: (B ++ '\n'
      :: (C ++ (rs.map (fun r => '\n' :: r.format)).flatten))), c ≠ '\r' := by
    intro c hc
    rcases List.mem_append.mp hc with hc | hc
    · exact (hA c hc).2
    · rcases List.mem_cons.mp hc with rfl | hc
      · decide
      · rcases List.mem_append.mp hc with hc | hc
        · exact (hB c hc).2
        · rcases List.mem_cons.mp hc with rfl | hc
          · decide
          · rcases List.mem_append.mp hc with hc | hc
            · exact (hC c hc).2
            · rcases List.mem_flatten.mp hc with ⟨chunk, hchunk, hcchunk⟩
              rcases List.mem_map.mp hchunk with ⟨r, hr, rfl⟩
              rcases List.mem_cons.mp hcchunk with rfl | hcc
              · decide
              · exact (rect_format_chars r c hcc).2
  rw [rustLines_clean _ (by simp) (by
      rw [hgl]
      intro heq
      injection heq with heq
      rw [heq] at hdlast
      exact absurd hdlast (by decide)) hcr]
  rw [splitPred_append_sep _ '\n' (by decide),
    splitPred_word _ A (fun c hc => by simp [(hA c hc).1]),
    splitPred_append_sep _ '\n' (by decide),
    splitPred_word _ B (fun c hc => by simp [(hB c hc).1]),
    splitPred_line_flatten rs C (fun c hc => (hC c hc).1)
      (fun r hr c hc => (rect_format_chars r c hc).1)]
  rfl

theorem rustLines_format (p : Problem) :
    rustLines (Problem.format p)
      = ("container height: ".data ++ p.variant.format)
        :: ("rotations allowed: ".data
            ++ (if p.allow_rotation then "yes".data else "no".data))
        :: ("number of rectangles: ".data ++ natToStr p.rectangles.length)
        :: p.rectangles.map Rectangle.format := by
  have hshape : Problem.format p
      = ("container height: ".data ++ p.variant.format)
        ++ '\n' :: (("rotations allowed: ".data
            ++ (if p.allow_rotation then "yes".data else "no".data))
        ++ '\n' :: (("number of rectangles: ".data ++ natToStr p.rectangles.length)
        ++ (p.rectangles.map (fun r => '\n' :: r.format)).flatten)) := by
    unfold Problem.format Problem.configStr
    simp [List.append_assoc]
  rw [hshape]
  refine rustLines_block _ _ _ _ ?_ ?_ ?_ ?_
  · intro c hc
    rcases List.mem_append.mp hc with hc | hc
    · exact (by decide : ∀ c ∈ "container height: ".data,
        c ≠ '\n' ∧ c ≠ '\r') c hc
    · exact variant_format_chars p.variant c hc
  · intro c hc
    rcases List.mem_append.mp hc with hc | hc
    · exact (by decide : ∀ c ∈ "rotations allowed: ".data,
        c ≠ '\n' ∧ c ≠ '\r') c hc
    · by_cases har : p.allow_rotation
      · rw [if_pos har] at hc
        exact (by decide : ∀ c ∈ "yes".data, c ≠ '\n' ∧ c ≠ '\r') c hc
      · rw [if_neg har] at hc
        exact (by decide : ∀ c ∈ "no".data, c ≠ '\n' ∧ c ≠ '\r') c hc
  · intro c hc
    rcases List.mem_append.mp hc with hc | hc
    · exact (by decide : ∀ c ∈ "number of rectangles: ".data,
        c ≠ '\n' ∧ c ≠ '\r') c hc
    · obtain ⟨-, -, h3, h4, -⟩ := natToStr_char_facts p.rectangles.length c hc
      exact ⟨h3, h4⟩
  · by_cases hrs : p.rectangles = []
    · rw [hrs]
      simp only [List.map_nil, List.flatten_nil, List.append_nil, List.length_nil]
      obtain ⟨c, hc, hd⟩ := natToStr_getLast_digit 0
      refine ⟨c, ?_, hd⟩
      rw [List.getLast?_append_of_ne_nil _ (natToStr_ne_nil _), hc]
    · obtain ⟨c, hc, hd⟩ := flatten_chunks_getLast p.rectangles hrs
      refine ⟨c, ?_, hd⟩
      rw [List.getLast?_append_of_ne_nil _ ?_, hc]
      intro h0
      rw [h0] at hc
      simp at hc

/-! ## C4: the round trip itself -/

theorem fromStr_of_lines (s : List Char) (l1 l2 l3 : List Char)
    (rls : List (List Char)) (v : Variant) (ar : Bool) (rs : List Rectangle)
    (hlines : rustLines s = l1 :: l2 :: l3 :: rls)
    (hv : parseVariantLine l1 = some v)
    (har : parseRotationLine l2 = some ar)
    (hrs : rls.mapM Rectangle.fromStr = some rs) :
    Problem.fromStr s = some ⟨v, ar, rs, none⟩ := by
  unfold Problem.fromStr
  rw [hlines]
  simp only []
  rw [hv]
  simp only []
  rw [har]
  simp only [List.drop_succ_cons, List.drop_zero]
  rw [hrs]

theorem parseVariantLine_free :
    parseVariantLine ("container height: ".data ++ Variant.format Variant.Free)
      = some Variant.Free := by decide

theorem parseVariantLine_fixed (h : Nat) (hh : h < u32size) :
    parseVariantLine ("container height: ".data ++ Variant.format (Variant.Fixed h))
      = some (Variant.Fixed h) := by
  have hconcat : "container height: ".data ++ "fixed ".data
      = "container height: fixed".data ++ [' '] := by decide
  have hsh : "container height: ".data ++ Variant.format (Variant.Fixed h)
      = "container height: fixed".data ++ ' ' :: natToStr h := by
    show "container height: ".data ++ ("fixed ".data ++ natToStr h) = _
    rw [← List.append_assoc, hconcat, List.append_assoc]
    rfl
  rw [hsh]
  unfold parseVariantLine
  rw [splitWhitespace_append_space]
  rw [(by decide : splitWhitespace ("container height: fixed".data)
    = ["container".data, "height:".data, "fixed".data])]
  rw [splitWhitespace_word (natToStr h) (natToStr_ne_nil h)
    (fun c hc => (natToStr_char_facts h c hc).2.1)]
  show (if "container".data = "container".data ∧ "height:".data = "height:".data
      ∧ "fixed".data = "fixed".data
    then (parseU32 (natToStr h)).map Variant.Fixed else none)
    = some (Variant.Fixed h)
  rw [if_pos ⟨rfl, rfl, rfl⟩, parseU32_natToStr h hh]
  rfl

theorem parseRotationLine_format (b : Bool) :
    parseRotationLine ("rotations allowed: ".data
      ++ (if b then "yes".data else "no".data)) = some b := by
  cases b <;> decide

theorem rect_fromStr_format (r : Rectangle)
    (hw : r.width < u32size) (hh : r.height < u32size) :
    Rectangle.fromStr r.format = some r := by
  unfold Rectangle.fromStr Rectangle.format
  rw [splitWhitespace_append_space,
    splitWhitespace_word (natToStr r.width) (natToStr_ne_nil _)
      (fun c hc => (natToStr_char_facts _ c hc).2.1),
    splitWhitespace_word (natToStr r.height) (natToStr_ne_nil _)
      (fun c hc => (natToStr_char_facts _ c hc).2.1)]
  show (match parseU32 (natToStr r.width), parseU32 (natToStr r.height) with
    | some wv, some hv => some (Rectangle.new wv hv)
    | _, _ => none) = some r
  rw [parseU32_natToStr _ hw, parseU32_natToStr _ hh]
  rfl

theorem mapM_rect_format (rs : List Rectangle)
    (hb : ∀ r ∈ rs, r.width < u32size ∧ r.height < u32size) :
    (rs.map Rectangle.format).mapM Rectangle.fromStr = some rs := by
  induction rs with
  | nil => rfl
  | cons r rs ih =>
    simp only [List.map_cons, List.mapM_cons]
    rw [rect_fromStr_format r (hb r (by simp)).1 (hb r (by simp)).2,
      ih (fun q hq => hb q (by simp [hq]))]
    rfl

/-- C4 (amended): for every problem whose `source` field is unset,
parsing the `Display` output with `Problem::from_str` returns the
problem itself (the `u32` bounds on the stored dimensions are the type
invariants of the Rust fields).  A problem with `source = Some r` does
not round-trip: the text format never carries the source rectangle, so
parsing always yields `source = None` — see the counterexample. -/
theorem format_parse_roundtrip (p : Problem)
    (hsrc : p.source = none)
    (hrect : ∀ r ∈ p.rectangles, r.width < u32size ∧ r.height < u32size)
    (hvar : ∀ h, p.variant = Variant.Fixed h → h < u32size) :
    Problem.fromStr (Problem.format p) = some p := by
  have hv : parseVariantLine ("container height: ".data ++ p.variant.format)
      = some p.variant := by
    cases hpv : p.variant with
    | Free => exact parseVariantLine_free
    | Fixed h => exact parseVariantLine_fixed h (hvar h hpv)
  have hfinal := fromStr_of_lines (Problem.format p)
    ("container height: ".data ++ p.variant.format)
    ("rotations allowed: ".data
      ++ (if p.allow_rotation then "yes".data else "no".data))
    ("number of rectangles: ".data ++ natToStr p.rectangles.length)
    (p.rectangles.map Rectangle.format)
    p.variant p.allow_rotation p.rectangles
    (rustLines_format p) hv (parseRotationLine_format p.allow_rotation)
    (mapM_rect_format p.rectangles hrect)
  rw [hfinal]
  obtain ⟨pv, par, prs, psrc⟩ := p
  have hsrc' : psrc = none := hsrc
  subst hsrc'
  rfl

/-- A generated-style problem carrying a `source` rectangle: its format
does not mention the source, so parsing drops it. -/
def pC4cex : Problem := ⟨Variant.Free, false, [], some (Rectangle.new 1 1)⟩

/-- C4 counterexample: a problem with `source = Some r` does not satisfy
`parse(format(p)) = p` — the parse yields the same problem with
`source = None`. -/
theorem roundtrip_drops_source_cex :
    Problem.fromStr (Problem.format pC4cex)
      = some ⟨Variant.Free, false, [], none⟩ ∧
    Problem.fromStr (Problem.format pC4cex) ≠ some pC4cex := by
  refine ⟨by decide, by decide⟩

/-- The repo's own `format_parse` test vector, used to instantiate C4. -/
def pC4w : Problem :=
  ⟨Variant.Fixed 22, false, [Rectangle.new 12 8, Rectangle.new 10 9], none⟩

theorem format_parse_roundtrip_witness :
    Problem.fromStr (Problem.format pC4w) = some pC4w :=
  format_parse_roundtrip pC4w rfl (by decide)
    (by
      intro h hh
      injection hh with hh
      subst hh
      decide)

end Packt
